import Mathlib

/-!
Shallow embedding of the TNO-MPC `shamir` Go package (`secretsharing.go`).

Modelling conventions:
* Go `int` fields are modelled as `Int`; `*big.Int` as `Int`, with a `nil`
  pointer modelled by `Option Int`.
* Go `big.Rat` is modelled by `ℚ` (both keep fractions normalized with a
  positive denominator, and `Rat.IsInt` corresponds to `den = 1`).
* Go `big.Int.Mod` is Euclidean remainder, which is `Int.emod` (`%`);
  Go `big.Int.Div` is Euclidean division, which is `Int.ediv`.
* Randomness is made explicit: the coefficients drawn by `rand.Int` inside the
  two sharing functions are passed in as a `coefficients` list.
* Run-time panics of the Go code (division by zero in `big.NewRat`, `Mod` or
  `Div` with zero modulus, `ModInverse` returning `nil` followed by a `nil`
  dereference, and multiplication with a `nil` `Factor`) are modelled by the
  explicit outcome `ShamirError.Panic`, so that the embedding is total.
-/

/-- Error outcomes of the library: the four sentinel errors of the Go source
plus `Panic`, which models a Go run-time panic (not an `error` value). -/
inductive ShamirError where
  | NoShares
  | TooFewShares
  | IncompatibleShares
  | FractionalSecret
  | Panic
  deriving DecidableEq, Repr

/-- The `Share` struct of the Go source: `FieldSize` and `Factor` are
`*big.Int` (nullable), `Degree` and `X` are `int`, `Y` is `*big.Int`. -/
structure Share where
  FieldSize : Option Int
  Factor : Option Int
  Degree : Int
  X : Int
  Y : Int
  deriving DecidableEq, Repr

instance : Inhabited Share := ⟨⟨none, none, 0, 0, 0⟩⟩

instance {α : Type} [DecidableEq α] : DecidableEq (Except ShamirError α) :=
  fun a b =>
    match a, b with
    | Except.ok x, Except.ok y => decidable_of_iff (x = y) (by simp)
    | Except.error e, Except.error f => decidable_of_iff (e = f) (by simp)
    | Except.ok _, Except.error _ => isFalse (by simp)
    | Except.error _, Except.ok _ => isFalse (by simp)

/-- The helper `equalOrBothNil` of the Go source: two nullable big integers
are equal when both are `nil` or both are non-`nil` with equal values. -/
def equalOrBothNil (a b : Option Int) : Bool :=
  match a, b with
  | none, none => true
  | some x, some y => decide (x = y)
  | _, _ => false

/-- The helper `factorial` of the Go source: `big.NewInt(0).MulRange(1, n)`,
which is `n!` for `n ≥ 0` (an empty product, hence `1`, for `n = 0`). -/
def factorial (n : Nat) : Int :=
  (Nat.factorial n : Int)

/-- The share of participant `i` (zero-based loop index, so `X = i + 1`)
produced by `ShareFiniteField`: `Y = (secret + Σ_j coeff_j (i+1)^(j+1)) mod p`. -/
def ffShare (secret fieldSize : Int) (degree : Nat) (coefficients : List Int)
    (i : Nat) : Share :=
  { FieldSize := some fieldSize
    Factor := none
    Degree := (degree : Int)
    X := (i : Int) + 1
    Y := (secret +
      ∑ j ∈ Finset.range degree,
        coefficients.getD j 0 * ((i : Int) + 1) ^ (j + 1)) % fieldSize }

/-- `ShareFiniteField` of the Go source. The `degree` random coefficients
drawn from `[0, fieldSize)` are passed explicitly as `coefficients`. -/
def ShareFiniteField (secret fieldSize : Int) (degree nShares : Nat)
    (coefficients : List Int) : List Share :=
  (List.range nShares).map (ffShare secret fieldSize degree coefficients)

/-- The upper bound `2^statSecParam * nShares^2 * secretUpperBound` used by
`ShareIntegers` for its random coefficients. -/
def coefficientUpperBound (secretUpperBound : Int) (statSecParam nShares : Nat) : Int :=
  2 ^ statSecParam * ((nShares : Int) * (nShares : Int)) * secretUpperBound

/-- The share of participant `i` produced by `ShareIntegers`: no modular
reduction, the secret is pre-multiplied by `nShares!`, and
`Factor = nShares!`. -/
def intShare (secret : Int) (degree nShares : Nat) (coefficients : List Int)
    (i : Nat) : Share :=
  { FieldSize := none
    Factor := some (factorial nShares)
    Degree := (degree : Int)
    X := (i : Int) + 1
    Y := secret * factorial nShares +
      ∑ j ∈ Finset.range degree,
        coefficients.getD j 0 * ((i : Int) + 1) ^ (j + 1) }

/-- `ShareIntegers` of the Go source. The `degree` random coefficients drawn
from `[0, coefficientUpperBound)` are passed explicitly; `secretUpperBound`
and `statSecParam` only constrain that draw. -/
def ShareIntegers (secret secretUpperBound : Int) (statSecParam degree nShares : Nat)
    (coefficients : List Int) : List Share :=
  (List.range nShares).map (intShare secret degree nShares coefficients)

/-- The compatibility test of `ShareCombine`'s validation loop:
`equalOrBothNil(FieldSize)` and equal `Degree`. -/
def combineCompat (s0 s : Share) : Bool :=
  equalOrBothNil s0.FieldSize s.FieldSize && decide (s0.Degree = s.Degree)

/-- Whether two of the first `m` shares carry the same `X`. In that case the
Go interpolation loop evaluates `big.NewRat(x, 0)`, which panics. -/
def hasDupX (shares : List Share) (m : Nat) : Bool :=
  (List.range m).any fun i => (List.range m).any fun j =>
    decide (i ≠ j) && decide ((shares.getD i default).X = (shares.getD j default).X)

/-- The Lagrange interpolation at `x = 0` over the rationals performed by
`ShareCombine` on the first `m = degree+1` shares:
`Σ_i y_i · Π_{j≠i} x_j / (x_j - x_i)`. -/
def combineSum (shares : List Share) (m : Nat) : ℚ :=
  ∑ i ∈ Finset.range m,
    ((shares.getD i default).Y : ℚ) *
      ∏ j ∈ (Finset.range m).erase i,
        ((shares.getD j default).X : ℚ) /
          (((shares.getD j default).X - (shares.getD i default).X : Int) : ℚ)

/-- The interpolation value of `combineSum` expressed through node and value
functions: `Σ_{i<m} y_i · Π_{j≠i} x_j / (x_j - x_i)` over `ℚ`. -/
def lagrangeAt0 (x y : Nat → Int) (m : Nat) : ℚ :=
  ∑ i ∈ Finset.range m,
    (y i : ℚ) * ∏ j ∈ (Finset.range m).erase i,
      (x j : ℚ) / ((x j - x i : Int) : ℚ)

/-- `Π_{j≠i} (x_j - x_i)`: the denominator produced by the Lagrange basis
factor at node `i`. -/
def nodeDiffProd (x : Nat → Int) (m i : Nat) : Int :=
  ∏ j ∈ (Finset.range m).erase i, (x j - x i)

/-- The product of all the `nodeDiffProd` denominators; multiplying the
interpolation value by it clears every denominator. -/
def nodeDiffProdAll (x : Nat → Int) (m : Nat) : Int :=
  ∏ i ∈ Finset.range m, nodeDiffProd x m i

/-- The integer obtained from the `i`-th Lagrange term after clearing all
denominators: `(Π_{j≠i} x_j) · Π_{k≠i} nodeDiffProd k`. -/
def clearedTerm (x : Nat → Int) (m i : Nat) : Int :=
  (∏ j ∈ (Finset.range m).erase i, x j) *
    ∏ k ∈ (Finset.range m).erase i, nodeDiffProd x m k

/-- The denominator-free form of the interpolation sum:
`nodeDiffProdAll · lagrangeAt0 = clearedSum` over `ℚ`. -/
def clearedSum (x y : Nat → Int) (m : Nat) : Int :=
  ∑ i ∈ Finset.range m, y i * clearedTerm x m i

/-- Model of Go's `big.Int.ModInverse(g, n)` by its documented semantics:
`nil` (here `none`) when `g` has no inverse modulo `|n|`, otherwise the unique
canonical representative of the inverse in `[0, |n|)`, here obtained by
bounded search (the representative is unique, so the search agrees with Go's
extended-Euclid computation). The library only calls it with `g = den > 0`. -/
def goModInverse (g n : Int) : Option Int :=
  ((List.range n.natAbs).find? fun k : Nat => g * (k : Int) % n == 1 % n).map
    fun k : Nat => (k : Int)

/-- `ShareCombine` of the Go source: validation (empty, too few, pairwise
compatibility with the first share), exact rational Lagrange interpolation at
`0` over the first `degree+1` shares, then either reduction modulo
`FieldSize` via a modular inverse of the denominator, or (integer domain) an
integrality check followed by division by `Factor`. -/
def ShareCombine (shares : List Share) : Except ShamirError Int :=
  match shares with
  | [] => Except.error ShamirError.NoShares
  | s0 :: _ =>
    if (shares.length : Int) ≤ s0.Degree then Except.error ShamirError.TooFewShares
    else if shares.any (fun s => !combineCompat s0 s) then
      Except.error ShamirError.IncompatibleShares
    else
      let m := (s0.Degree + 1).toNat
      if hasDupX shares m then Except.error ShamirError.Panic
      else
        let L := combineSum shares m
        match s0.FieldSize with
        | some p =>
          match goModInverse (L.den : Int) p with
          | none => Except.error ShamirError.Panic
          | some inv =>
            if p = 0 then Except.error ShamirError.Panic
            else Except.ok (L.num * inv % p)
        | none =>
          if L.den = 1 then
            match s0.Factor with
            | none => Except.error ShamirError.Panic
            | some f =>
              if f = 0 then Except.error ShamirError.Panic
              else Except.ok (Int.ediv L.num f)
          else Except.error ShamirError.FractionalSecret

/-- The compatibility test of `ShareAdd`/`ShareMul`: `equalOrBothNil` on
`FieldSize`, equal `Degree`, equal `X`. -/
def opCompat (s0 s : Share) : Bool :=
  equalOrBothNil s0.FieldSize s.FieldSize && decide (s0.Degree = s.Degree)
    && decide (s0.X = s.X)

/-- The accumulation loop of `ShareAdd`, processing `shares[1:]` in order:
check compatibility against `shares[0]`, add `Y`, and reduce modulo the field
size in the finite-field domain (`Mod` panics when the modulus is zero). -/
def shareAddLoop (s0 : Share) (y : Int) : List Share → Except ShamirError Int
  | [] => Except.ok y
  | s :: rest =>
    if opCompat s0 s then
      match s0.FieldSize with
      | some p =>
        if p = 0 then Except.error ShamirError.Panic
        else shareAddLoop s0 ((y + s.Y) % p) rest
      | none => shareAddLoop s0 (y + s.Y) rest
    else Except.error ShamirError.IncompatibleShares

/-- `ShareAdd` of the Go source: the output share copies `FieldSize`,
`Factor`, `Degree` and `X` from the first share and accumulates `Y`. -/
def ShareAdd (shares : List Share) : Except ShamirError Share :=
  match shares with
  | [] => Except.error ShamirError.NoShares
  | s0 :: rest =>
    (shareAddLoop s0 s0.Y rest).map fun y =>
      { FieldSize := s0.FieldSize, Factor := s0.Factor, Degree := s0.Degree
        X := s0.X, Y := y }

/-- The accumulation loop of `ShareMul`, processing `shares[1:]` in order:
check compatibility, multiply `Y` (reducing modulo the field size, which
panics on a zero modulus), add the degrees, and multiply the scale factors
(dereferencing `shares[i].Factor`, which panics when it is `nil` while the
accumulated factor is not). -/
def shareMulLoop (s0 : Share) (y deg : Int) (fac : Option Int) :
    List Share → Except ShamirError Share
  | [] => Except.ok { FieldSize := s0.FieldSize, Factor := fac, Degree := deg
                      X := s0.X, Y := y }
  | s :: rest =>
    if opCompat s0 s then
      match s0.FieldSize with
      | some p =>
        if p = 0 then Except.error ShamirError.Panic
        else
          match fac with
          | some f =>
            match s.Factor with
            | none => Except.error ShamirError.Panic
            | some g => shareMulLoop s0 (y * s.Y % p) (deg + s.Degree) (some (f * g)) rest
          | none => shareMulLoop s0 (y * s.Y % p) (deg + s.Degree) none rest
      | none =>
        match fac with
        | some f =>
          match s.Factor with
          | none => Except.error ShamirError.Panic
          | some g => shareMulLoop s0 (y * s.Y) (deg + s.Degree) (some (f * g)) rest
        | none => shareMulLoop s0 (y * s.Y) (deg + s.Degree) none rest
    else Except.error ShamirError.IncompatibleShares

/-- `ShareMul` of the Go source: starts from the first share's `Y`, `Degree`
and (a copy of) `Factor`, then folds the remaining shares in. -/
def ShareMul (shares : List Share) : Except ShamirError Share :=
  match shares with
  | [] => Except.error ShamirError.NoShares
  | s0 :: rest => shareMulLoop s0 s0.Y s0.Degree s0.Factor rest

/-! ## Concrete evaluations: counterexamples and witnesses by computation

Batteries marks the arithmetic on `Rat` as irreducible; concrete runs of the
interpolation need it unfolded. -/

section ConcreteEval

attribute [local semireducible] Rat.mul Rat.inv Rat.add Rat.sub Rat.ofScientific

/-- C1, counterexample: with `p = 2`, secret `0`, degree `1`, `n = 3` and
coefficient `1` (a legal draw from `[0, 2)`), combining the subset of shares
with `x = 1` and `x = 3` returns `1`, not `0 mod 2 = 0`: the round-trip claim
fails when two chosen evaluation points coincide modulo `p`. -/
theorem shareFiniteField_roundtrip_fails_small_prime :
    ShareCombine [(ShareFiniteField 0 2 1 3 [1]).getD 0 default,
      (ShareFiniteField 0 2 1 3 [1]).getD 2 default] = Except.ok 1 ∧
      (0 : Int) % 2 ≠ 1 := by
  constructor
  · rfl
  · decide

/-- C3, counterexample: a finite-field input (prime modulus `5`) that passes
all three validation checks but still fails: two shares carry the same
`x = 1`, so the interpolation loop divides by zero (a run-time panic, modelled
as the `Panic` outcome), contradicting that no other input causes an error in
the finite-field case. -/
theorem shareCombine_dup_x_panics :
    ShareCombine [Share.mk (some 5) none 1 1 0, Share.mk (some 5) none 1 1 0]
      = Except.error ShamirError.Panic := by
  rfl

/-- C4, counterexample: secrets `0` and `0` shared over `p = 2` with degree
`1`, `n = 3`, coefficients `1` and `0`; pointwise `ShareAdd` on participants
`x = 1` and `x = 3` followed by `ShareCombine` returns `1`, not
`(0 + 0) mod 2 = 0`. -/
theorem shareAdd_homomorphism_fails_small_prime :
    (do
      let A := ShareFiniteField 0 2 1 3 [1]
      let B := ShareFiniteField 0 2 1 3 [0]
      let c0 ← ShareAdd [A.getD 0 default, B.getD 0 default]
      let c2 ← ShareAdd [A.getD 2 default, B.getD 2 default]
      ShareCombine [c0, c2]) = Except.ok 1 ∧ (0 + 0 : Int) % 2 ≠ 1 := by
  constructor
  · rfl
  · decide

/-- C5, counterexample: secrets `0` and `0` shared over `p = 3` with degree
`1`, `n = 5`, coefficient `1` in both sharings; pointwise `ShareMul` and then
`ShareCombine` on the `(2d+1)`-subset with `x ∈ {1, 4, 2}` returns `1`, not
`(0 * 0) mod 3 = 0`. -/
theorem shareMul_homomorphism_fails_small_prime :
    (do
      let A := ShareFiniteField 0 3 1 5 [1]
      let m0 ← ShareMul [A.getD 0 default, A.getD 0 default]
      let m3 ← ShareMul [A.getD 3 default, A.getD 3 default]
      let m1 ← ShareMul [A.getD 1 default, A.getD 1 default]
      ShareCombine [m0, m3, m1]) = Except.ok 1 ∧ (0 * 0 : Int) % 3 ≠ 1 := by
  constructor
  · rfl
  · decide

/-- C6, counterexample: two non-empty pairwise-compatible shares (equal
`FieldSize = some 0`, `Degree`, `X`) on which `ShareAdd` does not succeed:
the reduction `Mod(y, 0)` panics. -/
theorem shareAdd_compatible_but_panics :
    opCompat (Share.mk (some 0) none 1 1 1) (Share.mk (some 0) none 1 1 1) = true ∧
      ShareAdd [Share.mk (some 0) none 1 1 1, Share.mk (some 0) none 1 1 1]
        = Except.error ShamirError.Panic := by
  constructor
  · rfl
  · rfl

/-- C7, counterexample: a single share with `Degree = -1` (the exported `int`
field may hold any value) combines successfully to `0`, but the "first
`degree+1` shares" form the empty list, on which `ShareCombine` fails with
`NoShares`. -/
theorem shareCombine_prefix_fails_negative_degree :
    ShareCombine [Share.mk (some 5) none (-1) 1 0] = Except.ok 0 ∧
      ShareCombine (List.take ((-1 + 1 : Int).toNat)
        [Share.mk (some 5) none (-1) 1 0]) = Except.error ShamirError.NoShares := by
  constructor
  · rfl
  · rfl

/-- C8, counterexample: with the all-zero choice of random coefficients for
`ShareIntegers(456, 7919, 100, 2, 5)`, replacing the first share's `x` by the
out-of-range value `6` still reconstructs `456` exactly: `ShareCombine` does
not yield `FractionalSecret` for every choice of coefficients. -/
theorem shareIntegers_tampered_x_not_always_fractional :
    (ShareCombine
      ({ (ShareIntegers 456 7919 100 2 5 [0, 0]).getD 0 default with X := 6 }
        :: (ShareIntegers 456 7919 100 2 5 [0, 0]).drop 1)) = Except.ok 456 := by
  rfl

/-- C8, amended: with coefficients `(1, 0)` for
`ShareIntegers(456, 7919, 100, 2, 5)`, replacing the first share's `x` by the
out-of-range value `6` makes reconstruction fail with `FractionalSecret`. -/
theorem shareIntegers_tampered_x_fractional :
    (ShareCombine
      ({ (ShareIntegers 456 7919 100 2 5 [1, 0]).getD 0 default with X := 6 }
        :: (ShareIntegers 456 7919 100 2 5 [1, 0]).drop 1))
      = Except.error ShamirError.FractionalSecret := by
  rfl

/-- C9, counterexample: an integer-domain share list passing all checks whose
interpolated value `-3` is an exact integer not divisible by the scale factor
`2`; `ShareCombine` returns the Euclidean quotient `-2`, not the truncated
quotient `Int.tdiv (-3) 2 = -1` the claim describes. -/
theorem shareCombine_quotient_not_truncated :
    ShareCombine [Share.mk none (some 2) 0 1 (-3)] = Except.ok (-2) ∧
      Int.tdiv (-3) 2 = -1 ∧
      ShareCombine [Share.mk none (some 2) 0 1 (-3)]
        ≠ Except.ok (Int.tdiv (-3) 2) := by
  refine ⟨by rfl, by decide, ?_⟩
  intro h
  rw [show Int.tdiv (-3) 2 = -1 by decide] at h
  have h2 : ShareCombine [Share.mk none (some 2) 0 1 (-3)] = Except.ok (-2) := by rfl
  rw [h2] at h
  exact absurd (Except.ok.inj h) (by decide)

/-- C9, amended: an integer-domain share list that passes every check of
`ShareCombine`, whose Lagrange-interpolated value at `0` is the exact integer
`-3`, not divisible by the scale factor `2`; `ShareCombine` silently returns
the Euclidean quotient `Int.ediv (-3) 2 = -2` with no error: the
`FractionalSecret` check detects non-integrality but not non-divisibility by
the scale factor. -/
theorem shareCombine_nondivisible_scale_silent :
    combineSum [Share.mk none (some 2) 0 1 (-3)] 1 = (-3 : ℚ) ∧
      ((-3 : ℚ)).den = 1 ∧ ¬ ((2 : Int) ∣ -3) ∧
      ShareCombine [Share.mk none (some 2) 0 1 (-3)] = Except.ok (Int.ediv (-3) 2) := by
  refine ⟨by rfl, by decide, by decide, by rfl⟩

/-- C10: on two pairwise-compatible integer-domain shares (the `opCompat`
check never inspects `Factor`) where the first `Factor` is non-`nil` and the
second is `nil`, `ShareMul`'s scale-factor accumulation dereferences a `nil`
`big.Int`: the panic branch of the total embedding is reached. -/
theorem shareMul_nil_factor_panics :
    opCompat (Share.mk none (some 1) 0 1 1) (Share.mk none none 0 1 1) = true ∧
      (Share.mk none (some 1) 0 1 1).Factor ≠ none ∧
      (Share.mk none none 0 1 1).Factor = none ∧
      ShareMul [Share.mk none (some 1) 0 1 1, Share.mk none none 0 1 1]
        = Except.error ShamirError.Panic := by
  exact ⟨by rfl, by decide, by rfl, by rfl⟩

end ConcreteEval

/-! ## Structural lemmas about the validation logic -/

theorem equalOrBothNil_eq_true_iff (a b : Option Int) :
    equalOrBothNil a b = true ↔ a = b := by
  cases a <;> cases b <;> simp [equalOrBothNil]

theorem combineCompat_eq_true_iff (s0 s : Share) :
    combineCompat s0 s = true ↔ s0.FieldSize = s.FieldSize ∧ s0.Degree = s.Degree := by
  simp [combineCompat, equalOrBothNil_eq_true_iff]

theorem opCompat_eq_true_iff (s0 s : Share) :
    opCompat s0 s = true ↔
      s0.FieldSize = s.FieldSize ∧ s0.Degree = s.Degree ∧ s0.X = s.X := by
  simp [opCompat, equalOrBothNil_eq_true_iff, and_assoc]

theorem combineCompat_self (s : Share) : combineCompat s s = true := by
  simp [combineCompat_eq_true_iff]

theorem hasDupX_eq_true_iff (l : List Share) (m : Nat) :
    hasDupX l m = true ↔ ∃ i < m, ∃ j < m, i ≠ j ∧
      (l.getD i default).X = (l.getD j default).X := by
  simp [hasDupX, List.any_eq_true, List.mem_range]

theorem hasDupX_eq_false_iff (l : List Share) (m : Nat) :
    hasDupX l m = false ↔ ∀ i < m, ∀ j < m, i ≠ j →
      (l.getD i default).X ≠ (l.getD j default).X := by
  rw [← Bool.not_eq_true, hasDupX_eq_true_iff]
  push_neg
  constructor
  · intro h i hi j hj hij
    exact h i hi j hj hij
  · intro h i hi j hj hij
    exact h i hi j hj hij

theorem combineAny_eq_false_iff (s0 : Share) (l : List Share) :
    (l.any fun s => !combineCompat s0 s) = false ↔
      ∀ s ∈ l, combineCompat s0 s = true := by
  simp [List.any_eq_false]

theorem getD_map_range (g : Nat → Share) (n i : Nat) (h : i < n) :
    ((List.range n).map g).getD i default = g i := by
  simp [List.getD_eq_getElem?_getD, List.getElem?_range h]

theorem getD_take_eq (l : List Share) (k i : Nat) (h : i < k) :
    (l.take k).getD i default = l.getD i default := by
  simp [List.getD_eq_getElem?_getD, List.getElem?_take_of_lt h]

/-- Unfolding of `ShareCombine` on a non-empty list whose early checks pass. -/
theorem shareCombine_cons_eq (s0 : Share) (rest : List Share)
    (h1 : ¬ (((s0 :: rest : List Share).length : Int) ≤ s0.Degree))
    (h2 : ((s0 :: rest).any fun s => !combineCompat s0 s) = false) :
    ShareCombine (s0 :: rest) =
      (if hasDupX (s0 :: rest) (s0.Degree + 1).toNat then
        Except.error ShamirError.Panic
      else
        match s0.FieldSize with
        | some p =>
          match goModInverse
              ((combineSum (s0 :: rest) (s0.Degree + 1).toNat).den : Int) p with
          | none => Except.error ShamirError.Panic
          | some inv =>
            if p = 0 then Except.error ShamirError.Panic
            else Except.ok ((combineSum (s0 :: rest) (s0.Degree + 1).toNat).num * inv % p)
        | none =>
          if (combineSum (s0 :: rest) (s0.Degree + 1).toNat).den = 1 then
            match s0.Factor with
            | none => Except.error ShamirError.Panic
            | some f =>
              if f = 0 then Except.error ShamirError.Panic
              else Except.ok (Int.ediv (combineSum (s0 :: rest) (s0.Degree + 1).toNat).num f)
          else Except.error ShamirError.FractionalSecret) := by
  simp only [ShareCombine, if_neg h1, h2, Bool.false_eq_true, if_false]

theorem shareCombine_cons_tooFew (s0 : Share) (rest : List Share)
    (h : ((s0 :: rest : List Share).length : Int) ≤ s0.Degree) :
    ShareCombine (s0 :: rest) = Except.error ShamirError.TooFewShares := by
  simp only [ShareCombine, if_pos h]

theorem shareCombine_cons_incompat (s0 : Share) (rest : List Share)
    (h1 : ¬ (((s0 :: rest : List Share).length : Int) ≤ s0.Degree))
    (h2 : ((s0 :: rest).any fun s => !combineCompat s0 s) = true) :
    ShareCombine (s0 :: rest) = Except.error ShamirError.IncompatibleShares := by
  simp only [ShareCombine, if_neg h1, h2, if_true]

/-- C3, amended: `ShareCombine` fails with `NoShares` exactly on the empty
input; otherwise with `TooFewShares` exactly when the number of shares is at
most `shares[0].Degree`; otherwise with `IncompatibleShares` exactly when
some supplied share (including shares beyond the first `degree+1`) differs
from the first in `FieldSize` (hence in domain) or in `Degree` — the three
checks applied in exactly that order.  In the finite-field case no input
yields `FractionalSecret` or any further library error value: an input that
passes the three checks either succeeds or hits a modelled run-time panic
(duplicate `x` among the first `degree+1` shares, a Lagrange denominator not
invertible modulo `FieldSize`, or a zero `FieldSize`). -/
theorem shareCombine_error_characterization (shares : List Share) :
    (ShareCombine shares = Except.error ShamirError.NoShares ↔ shares = []) ∧
    (ShareCombine shares = Except.error ShamirError.TooFewShares ↔
      ∃ s0 rest, shares = s0 :: rest ∧ ((shares.length : Int) ≤ s0.Degree)) ∧
    (ShareCombine shares = Except.error ShamirError.IncompatibleShares ↔
      ∃ s0 rest, shares = s0 :: rest ∧ s0.Degree < (shares.length : Int) ∧
        ∃ s ∈ shares, ¬ (s0.FieldSize = s.FieldSize ∧ s0.Degree = s.Degree)) ∧
    (∀ s0 rest p, shares = s0 :: rest → s0.FieldSize = some p →
      ShareCombine shares ≠ Except.error ShamirError.FractionalSecret) ∧
    (∀ s0 rest p, shares = s0 :: rest → s0.FieldSize = some p →
      s0.Degree < (shares.length : Int) →
      (∀ s ∈ shares, s0.FieldSize = s.FieldSize ∧ s0.Degree = s.Degree) →
      (∃ v, ShareCombine shares = Except.ok v) ∨
        ShareCombine shares = Except.error ShamirError.Panic) := by
  cases shares with
  | nil =>
    refine ⟨by simp [ShareCombine], by simp [ShareCombine], by simp [ShareCombine],
      ?_, ?_⟩
    · intro s0 rest p h
      exact absurd h (by simp)
    · intro s0 rest p h
      exact absurd h (by simp)
  | cons s0 rest =>
    by_cases h1 : (((s0 :: rest : List Share).length : Int) ≤ s0.Degree)
    · have hres := shareCombine_cons_tooFew s0 rest h1
      refine ⟨by rw [hres]; simp, ?_, ?_, ?_, ?_⟩
      · rw [hres]
        simp only [List.cons.injEq, true_iff, iff_true]
        exact ⟨s0, rest, ⟨rfl, rfl⟩, h1⟩
      · rw [hres]
        simp only [Except.error.injEq, List.cons.injEq]
        constructor
        · intro h
          exact absurd h (by simp)
        · rintro ⟨s0', rest', ⟨rfl, rfl⟩, hlt, -⟩
          exact absurd h1 (not_le.mpr hlt)
      · intro s0' rest' p heq hFS
        cases heq
        rw [hres]
        simp
      · intro s0' rest' p heq hFS hlt hall
        cases heq
        exact absurd h1 (not_le.mpr hlt)
    · by_cases h2 : ((s0 :: rest).any fun s => !combineCompat s0 s) = true
      · have hres := shareCombine_cons_incompat s0 rest h1 h2
        obtain ⟨s, hs, hcs⟩ := List.any_eq_true.mp h2
        have hcfalse : ¬ (s0.FieldSize = s.FieldSize ∧ s0.Degree = s.Degree) := by
          intro hc
          rw [(combineCompat_eq_true_iff s0 s).mpr hc] at hcs
          simp at hcs
        refine ⟨by rw [hres]; simp, ?_, ?_, ?_, ?_⟩
        · rw [hres]
          simp only [Except.error.injEq, List.cons.injEq]
          constructor
          · intro h
            exact absurd h (by simp)
          · rintro ⟨s0', rest', ⟨rfl, rfl⟩, hle⟩
            exact absurd hle h1
        · rw [hres]
          simp only [true_iff, iff_true]
          exact ⟨s0, rest, rfl, not_le.mp h1, s, hs, hcfalse⟩
        · intro s0' rest' p heq hFS
          cases heq
          rw [hres]
          simp
        · intro s0' rest' p heq hFS hlt hall
          cases heq
          exact absurd (hall s hs) hcfalse
      · have h2f : ((s0 :: rest).any fun s => !combineCompat s0 s) = false :=
          Bool.not_eq_true _ ▸ eq_false_of_ne_true h2
        have hall : ∀ s ∈ s0 :: rest, combineCompat s0 s = true :=
          (combineAny_eq_false_iff s0 (s0 :: rest)).mp h2f
        have hres := shareCombine_cons_eq s0 rest h1 h2f
        have hnotInc : ∀ (e : ShamirError),
            e ≠ ShamirError.Panic → e ≠ ShamirError.FractionalSecret →
            ShareCombine (s0 :: rest) ≠ Except.error e := by
          intro e hp hf h
          rw [hres] at h
          by_cases h3 : hasDupX (s0 :: rest) (s0.Degree + 1).toNat = true
          · rw [if_pos h3] at h
            exact hp (Except.error.inj h).symm
          · rw [if_neg h3] at h
            cases hFS : s0.FieldSize with
            | some p =>
              rw [hFS] at h
              dsimp only at h
              cases hInv : goModInverse
                  (((combineSum (s0 :: rest) (s0.Degree + 1).toNat)).den : Int) p with
              | none =>
                rw [hInv] at h
                dsimp only at h
                exact hp (Except.error.inj h).symm
              | some inv =>
                rw [hInv] at h
                dsimp only at h
                by_cases hp0 : p = 0
                · rw [if_pos hp0] at h
                  exact hp (Except.error.inj h).symm
                · rw [if_neg hp0] at h
                  cases h
            | none =>
              rw [hFS] at h
              dsimp only at h
              by_cases hden : (combineSum (s0 :: rest) (s0.Degree + 1).toNat).den = 1
              · rw [if_pos hden] at h
                cases hFac : s0.Factor with
                | none =>
                  rw [hFac] at h
                  dsimp only at h
                  exact hp (Except.error.inj h).symm
                | some f =>
                  rw [hFac] at h
                  dsimp only at h
                  by_cases hf0 : f = 0
                  · rw [if_pos hf0] at h
                    exact hp (Except.error.inj h).symm
                  · rw [if_neg hf0] at h
                    cases h
              · rw [if_neg hden] at h
                exact hf (Except.error.inj h).symm
        refine ⟨?_, ?_, ?_, ?_, ?_⟩
        · simp only [List.cons_ne_nil, iff_false]
          exact hnotInc ShamirError.NoShares (by simp) (by simp)
        · constructor
          · intro h
            exact absurd h (hnotInc ShamirError.TooFewShares (by simp) (by simp))
          · rintro ⟨s0', rest', heq, hle⟩
            cases heq
            exact absurd hle h1
        · constructor
          · intro h
            exact absurd h (hnotInc ShamirError.IncompatibleShares (by simp) (by simp))
          · rintro ⟨s0', rest', heq, hlt, s, hs, hns⟩
            cases heq
            exact absurd ((combineCompat_eq_true_iff s0 s).mp (hall s hs)) hns
        · intro s0' rest' p heq hFS
          cases heq
          intro h
          rw [hres] at h
          by_cases h3 : hasDupX (s0 :: rest) (s0.Degree + 1).toNat = true
          · rw [if_pos h3] at h
            cases h
          · rw [if_neg h3, hFS] at h
            dsimp only at h
            cases hInv : goModInverse
                (((combineSum (s0 :: rest) (s0.Degree + 1).toNat)).den : Int) p with
            | none =>
              rw [hInv] at h
              dsimp only at h
              cases h
            | some inv =>
              rw [hInv] at h
              dsimp only at h
              by_cases hp0 : p = 0
              · rw [if_pos hp0] at h
                cases h
              · rw [if_neg hp0] at h
                cases h
        · intro s0' rest' p heq hFS hlt hall'
          cases heq
          rw [hres]
          by_cases h3 : hasDupX (s0 :: rest) (s0.Degree + 1).toNat = true
          · rw [if_pos h3]
            exact Or.inr rfl
          · rw [if_neg h3, hFS]
            dsimp only
            cases hInv : goModInverse
                (((combineSum (s0 :: rest) (s0.Degree + 1).toNat)).den : Int) p with
            | none =>
              dsimp only
              exact Or.inr rfl
            | some inv =>
              dsimp only
              by_cases hp0 : p = 0
              · rw [if_pos hp0]
                exact Or.inr rfl
              · rw [if_neg hp0]
                exact Or.inl ⟨_, rfl⟩

/-- C3, witness: the characterization applied to the empty list yields the
`NoShares` error. -/
theorem shareCombine_error_characterization_witness :
    ShareCombine [] = Except.error ShamirError.NoShares :=
  (shareCombine_error_characterization []).1.mpr rfl

/-! ## Behaviour of the `ShareAdd` and `ShareMul` loops -/

theorem shareAddLoop_ok_of_compat (s0 : Share) (y : Int) (l : List Share)
    (hFS : s0.FieldSize ≠ some 0) (hall : ∀ s ∈ l, opCompat s0 s = true) :
    ∃ z, shareAddLoop s0 y l = Except.ok z := by
  induction l generalizing y with
  | nil => exact ⟨y, rfl⟩
  | cons s t ih =>
    have hc := hall s (List.mem_cons_self s t)
    have hall' : ∀ s ∈ t, opCompat s0 s = true := fun x hx => hall x (List.mem_cons_of_mem _ hx)
    simp only [shareAddLoop, hc, if_true]
    cases hfs : s0.FieldSize with
    | some p =>
      have hp : ¬ p = 0 := fun h => hFS (by rw [hfs, h])
      dsimp only
      rw [if_neg hp]
      exact ih _ hall'
    | none => exact ih _ hall'

theorem shareAddLoop_incompat (s0 : Share) (y : Int) (l : List Share)
    (hFS : s0.FieldSize ≠ some 0) (hex : ∃ s ∈ l, opCompat s0 s = false) :
    shareAddLoop s0 y l = Except.error ShamirError.IncompatibleShares := by
  induction l generalizing y with
  | nil =>
    obtain ⟨s, hs, -⟩ := hex
    cases hs
  | cons s t ih =>
    by_cases hc : opCompat s0 s = true
    · obtain ⟨s', hs', hcs'⟩ := hex
      rcases List.mem_cons.mp hs' with rfl | hmem
      · rw [hc] at hcs'
        cases hcs'
      · simp only [shareAddLoop, hc, if_true]
        cases hfs : s0.FieldSize with
        | some p =>
          have hp : ¬ p = 0 := fun h => hFS (by rw [hfs, h])
          dsimp only
          rw [if_neg hp]
          exact ih _ ⟨s', hmem, hcs'⟩
        | none => exact ih _ ⟨s', hmem, hcs'⟩
    · simp only [shareAddLoop, hc, if_false]
      rfl

theorem shareAddLoop_zero_fs_panic (s0 : Share) (y : Int) (s : Share) (t : List Share)
    (hFS : s0.FieldSize = some 0) (hc : opCompat s0 s = true) :
    shareAddLoop s0 y (s :: t) = Except.error ShamirError.Panic := by
  simp only [shareAddLoop, hc, if_true, hFS, if_pos rfl]

theorem shareMulLoop_ok_of_compat (s0 : Share) (y deg : Int) (fac : Option Int)
    (l : List Share) (hFS : s0.FieldSize ≠ some 0)
    (hall : ∀ s ∈ l, opCompat s0 s = true)
    (hfac : fac = none ∨ ∀ s ∈ l, s.Factor ≠ none) :
    ∃ out, shareMulLoop s0 y deg fac l = Except.ok out := by
  induction l generalizing y deg fac with
  | nil => exact ⟨_, rfl⟩
  | cons s t ih =>
    have hc := hall s (List.mem_cons_self s t)
    have hall' : ∀ s ∈ t, opCompat s0 s = true := fun x hx => hall x (List.mem_cons_of_mem _ hx)
    simp only [shareMulLoop, hc, if_true]
    cases hfs : s0.FieldSize with
    | some p =>
      have hp : ¬ p = 0 := fun h => hFS (by rw [hfs, h])
      dsimp only
      rw [if_neg hp]
      cases fac with
      | none => exact ih _ _ none hall' (Or.inl rfl)
      | some f =>
        rcases hfac with hno | hf
        · cases hno
        · obtain ⟨g, hg⟩ := Option.ne_none_iff_exists'.mp (hf s (List.mem_cons_self s t))
          rw [hg]
          exact ih _ _ _ hall' (Or.inr fun x hx => hf x (List.mem_cons_of_mem _ hx))
    | none =>
      cases fac with
      | none => exact ih _ _ none hall' (Or.inl rfl)
      | some f =>
        rcases hfac with hno | hf
        · cases hno
        · obtain ⟨g, hg⟩ := Option.ne_none_iff_exists'.mp (hf s (List.mem_cons_self s t))
          rw [hg]
          exact ih _ _ _ hall' (Or.inr fun x hx => hf x (List.mem_cons_of_mem _ hx))

theorem shareMulLoop_incompat (s0 : Share) (y deg : Int) (fac : Option Int)
    (l : List Share) (hFS : s0.FieldSize ≠ some 0)
    (hfac : fac = none ∨ ∀ s ∈ l, s.Factor ≠ none)
    (hex : ∃ s ∈ l, opCompat s0 s = false) :
    shareMulLoop s0 y deg fac l = Except.error ShamirError.IncompatibleShares := by
  induction l generalizing y deg fac with
  | nil =>
    obtain ⟨s, hs, -⟩ := hex
    cases hs
  | cons s t ih =>
    by_cases hc : opCompat s0 s = true
    · obtain ⟨s', hs', hcs'⟩ := hex
      rcases List.mem_cons.mp hs' with rfl | hmem
      · rw [hc] at hcs'
        cases hcs'
      · simp only [shareMulLoop, hc, if_true]
        cases hfs : s0.FieldSize with
        | some p =>
          have hp : ¬ p = 0 := fun h => hFS (by rw [hfs, h])
          dsimp only
          rw [if_neg hp]
          cases fac with
          | none => exact ih _ _ none (Or.inl rfl) ⟨s', hmem, hcs'⟩
          | some f =>
            rcases hfac with hno | hf
            · cases hno
            · obtain ⟨g, hg⟩ := Option.ne_none_iff_exists'.mp (hf s (List.mem_cons_self s t))
              rw [hg]
              exact ih _ _ _ (Or.inr fun x hx => hf x (List.mem_cons_of_mem _ hx))
                ⟨s', hmem, hcs'⟩
        | none =>
          cases fac with
          | none => exact ih _ _ none (Or.inl rfl) ⟨s', hmem, hcs'⟩
          | some f =>
            rcases hfac with hno | hf
            · cases hno
            · obtain ⟨g, hg⟩ := Option.ne_none_iff_exists'.mp (hf s (List.mem_cons_self s t))
              rw [hg]
              exact ih _ _ _ (Or.inr fun x hx => hf x (List.mem_cons_of_mem _ hx))
                ⟨s', hmem, hcs'⟩
    · simp only [shareMulLoop, hc, if_false]
      rfl

theorem shareMulLoop_zero_fs_panic (s0 : Share) (y deg : Int) (fac : Option Int)
    (s : Share) (t : List Share) (hFS : s0.FieldSize = some 0)
    (hc : opCompat s0 s = true) :
    shareMulLoop s0 y deg fac (s :: t) = Except.error ShamirError.Panic := by
  simp only [shareMulLoop, hc, if_true, hFS, if_pos rfl]

theorem shareMulLoop_nil_factor_panic (s0 : Share) (y deg f : Int) (l : List Share)
    (hFS : s0.FieldSize ≠ some 0) (hall : ∀ s ∈ l, opCompat s0 s = true)
    (hex : ∃ s ∈ l, s.Factor = none) :
    shareMulLoop s0 y deg (some f) l = Except.error ShamirError.Panic := by
  induction l generalizing y deg f with
  | nil =>
    obtain ⟨s, hs, -⟩ := hex
    cases hs
  | cons s t ih =>
    have hc := hall s (List.mem_cons_self s t)
    have hall' : ∀ s ∈ t, opCompat s0 s = true := fun x hx => hall x (List.mem_cons_of_mem _ hx)
    simp only [shareMulLoop, hc, if_true]
    cases hfs : s0.FieldSize with
    | some p =>
      have hp : ¬ p = 0 := fun h => hFS (by rw [hfs, h])
      dsimp only
      rw [if_neg hp]
      cases hsf : s.Factor with
      | none => rfl
      | some g =>
        obtain ⟨s', hs', hcs'⟩ := hex
        rcases List.mem_cons.mp hs' with rfl | hmem
        · rw [hsf] at hcs'
          cases hcs'
        · exact ih _ _ _ hall' ⟨s', hmem, hcs'⟩
    | none =>
      cases hsf : s.Factor with
      | none => rfl
      | some g =>
        obtain ⟨s', hs', hcs'⟩ := hex
        rcases List.mem_cons.mp hs' with rfl | hmem
        · rw [hsf] at hcs'
          cases hcs'
        · exact ih _ _ _ hall' ⟨s', hmem, hcs'⟩

theorem shareAddLoop_ne_error (s0 : Share) (y : Int) (l : List Share) (e : ShamirError)
    (he1 : e ≠ ShamirError.IncompatibleShares) (he2 : e ≠ ShamirError.Panic) :
    shareAddLoop s0 y l ≠ Except.error e := by
  induction l generalizing y with
  | nil => exact fun h => by cases h
  | cons s t ih =>
    by_cases hc : opCompat s0 s = true
    · simp only [shareAddLoop, hc, if_true]
      cases hfs : s0.FieldSize with
      | some p =>
        by_cases hp : p = 0
        · dsimp only
          rw [if_pos hp]
          exact fun h => he2 (Except.error.inj h).symm
        · dsimp only
          rw [if_neg hp]
          exact ih _
      | none => exact ih _
    · simp only [shareAddLoop, hc, if_false]
      exact fun h => he1 (Except.error.inj h).symm

theorem shareMulLoop_ne_error (s0 : Share) (y deg : Int) (fac : Option Int)
    (l : List Share) (e : ShamirError)
    (he1 : e ≠ ShamirError.IncompatibleShares) (he2 : e ≠ ShamirError.Panic) :
    shareMulLoop s0 y deg fac l ≠ Except.error e := by
  induction l generalizing y deg fac with
  | nil => exact fun h => by cases h
  | cons s t ih =>
    by_cases hc : opCompat s0 s = true
    · simp only [shareMulLoop, hc, if_true]
      cases hfs : s0.FieldSize with
      | some p =>
        by_cases hp : p = 0
        · dsimp only
          rw [if_pos hp]
          exact fun h => he2 (Except.error.inj h).symm
        · dsimp only
          rw [if_neg hp]
          cases fac with
          | none => exact ih _ _ _
          | some f =>
            cases s.Factor with
            | none => exact fun h => he2 (Except.error.inj h).symm
            | some g => exact ih _ _ _
      | none =>
        cases fac with
        | none => exact ih _ _ _
        | some f =>
          cases s.Factor with
          | none => exact fun h => he2 (Except.error.inj h).symm
          | some g => exact ih _ _ _
    · simp only [shareMulLoop, hc, if_false]
      exact fun h => he1 (Except.error.inj h).symm

/-- C6, amended: `ShareAdd` and `ShareMul` fail with `NoShares` exactly on
the empty input.  When the first share's `FieldSize` is not zero (and, for
`ShareMul`, no `nil`-`Factor` dereference can occur: the first `Factor` is
`nil` or no later one is), they succeed exactly on pairwise-compatible
inputs (equal `FieldSize`, `Degree` and `X` throughout, `Factor` never
checked) and fail with `IncompatibleShares` exactly when some share differs
from the first.  The remaining inputs panic instead of failing with an
error: a zero `FieldSize` with at least two compatible shares panics in
`Mod`, and `ShareMul` with a non-`nil` first `Factor` and a `nil` later
`Factor` on compatible shares panics dereferencing it. -/
theorem shareAddMul_validation (shares : List Share) :
    (ShareAdd shares = Except.error ShamirError.NoShares ↔ shares = []) ∧
    (ShareMul shares = Except.error ShamirError.NoShares ↔ shares = []) ∧
    (∀ s0 rest, shares = s0 :: rest → s0.FieldSize ≠ some 0 →
      ((∃ out, ShareAdd shares = Except.ok out) ↔ ∀ s ∈ rest, opCompat s0 s = true) ∧
      (ShareAdd shares = Except.error ShamirError.IncompatibleShares ↔
        ∃ s ∈ rest, opCompat s0 s = false)) ∧
    (∀ s0 rest, shares = s0 :: rest → s0.FieldSize ≠ some 0 →
      (s0.Factor = none ∨ ∀ s ∈ rest, s.Factor ≠ none) →
      ((∃ out, ShareMul shares = Except.ok out) ↔ ∀ s ∈ rest, opCompat s0 s = true) ∧
      (ShareMul shares = Except.error ShamirError.IncompatibleShares ↔
        ∃ s ∈ rest, opCompat s0 s = false)) ∧
    (∀ s0 s1 rest, shares = s0 :: s1 :: rest → s0.FieldSize = some 0 →
      opCompat s0 s1 = true →
      ShareAdd shares = Except.error ShamirError.Panic ∧
        ShareMul shares = Except.error ShamirError.Panic) ∧
    (∀ s0 rest f, shares = s0 :: rest → s0.FieldSize ≠ some 0 →
      s0.Factor = some f → (∀ s ∈ rest, opCompat s0 s = true) →
      (∃ s ∈ rest, s.Factor = none) →
      ShareMul shares = Except.error ShamirError.Panic) := by
  refine ⟨?_, ?_, ?_, ?_, ?_, ?_⟩
  · cases shares with
    | nil => simp [ShareAdd]
    | cons s0 rest =>
      simp only [List.cons_ne_nil, iff_false]
      intro h
      cases hres : shareAddLoop s0 s0.Y rest with
      | ok z => rw [ShareAdd, hres] at h; cases h
      | error e =>
        rw [ShareAdd, hres] at h
        cases h
        exact shareAddLoop_ne_error s0 s0.Y rest ShamirError.NoShares
          (by simp) (by simp) hres
  · cases shares with
    | nil => simp [ShareMul]
    | cons s0 rest =>
      simp only [List.cons_ne_nil, iff_false]
      intro h
      rw [ShareMul] at h
      exact shareMulLoop_ne_error s0 s0.Y s0.Degree s0.Factor rest ShamirError.NoShares
        (by simp) (by simp) h
  · rintro s0 rest rfl hFS
    constructor
    · constructor
      · intro hok
        by_contra hnot
        push_neg at hnot
        obtain ⟨s, hs, hcs⟩ := hnot
        have hloop := shareAddLoop_incompat s0 s0.Y rest hFS
          ⟨s, hs, eq_false_of_ne_true hcs⟩
        obtain ⟨out, hout⟩ := hok
        rw [ShareAdd, hloop] at hout
        cases hout
      · intro hall
        obtain ⟨z, hz⟩ := shareAddLoop_ok_of_compat s0 s0.Y rest hFS hall
        exact ⟨_, by rw [ShareAdd, hz]; rfl⟩
    · constructor
      · intro h
        by_contra hnot
        push_neg at hnot
        have hall : ∀ s ∈ rest, opCompat s0 s = true := by
          intro s hs
          by_contra hcs
          exact absurd (eq_false_of_ne_true hcs) (hnot s hs)
        obtain ⟨z, hz⟩ := shareAddLoop_ok_of_compat s0 s0.Y rest hFS hall
        rw [ShareAdd, hz] at h
        cases h
      · intro hex
        rw [ShareAdd, shareAddLoop_incompat s0 s0.Y rest hFS hex]
        rfl
  · rintro s0 rest rfl hFS hfacs
    have hfac0 : s0.Factor = none ∨ ∀ s ∈ rest, s.Factor ≠ none := hfacs
    constructor
    · constructor
      · intro hok
        by_contra hnot
        push_neg at hnot
        obtain ⟨s, hs, hcs⟩ := hnot
        have hloop := shareMulLoop_incompat s0 s0.Y s0.Degree s0.Factor rest hFS hfac0
          ⟨s, hs, eq_false_of_ne_true hcs⟩
        obtain ⟨out, hout⟩ := hok
        rw [ShareMul, hloop] at hout
        cases hout
      · intro hall
        obtain ⟨out, hout⟩ :=
          shareMulLoop_ok_of_compat s0 s0.Y s0.Degree s0.Factor rest hFS hall hfac0
        exact ⟨out, by rw [ShareMul, hout]⟩
    · constructor
      · intro h
        by_contra hnot
        push_neg at hnot
        have hall : ∀ s ∈ rest, opCompat s0 s = true := by
          intro s hs
          by_contra hcs
          exact absurd (eq_false_of_ne_true hcs) (hnot s hs)
        obtain ⟨out, hout⟩ :=
          shareMulLoop_ok_of_compat s0 s0.Y s0.Degree s0.Factor rest hFS hall hfac0
        rw [ShareMul, hout] at h
        cases h
      · intro hex
        rw [ShareMul, shareMulLoop_incompat s0 s0.Y s0.Degree s0.Factor rest hFS hfac0 hex]
  · rintro s0 s1 rest rfl hFS hc
    constructor
    · rw [ShareAdd, shareAddLoop_zero_fs_panic s0 s0.Y s1 rest hFS hc]
      rfl
    · rw [ShareMul, shareMulLoop_zero_fs_panic s0 s0.Y s0.Degree s0.Factor s1 rest hFS hc]
  · rintro s0 rest f rfl hFS hfac hall hex
    rw [ShareMul, hfac, shareMulLoop_nil_factor_panic s0 s0.Y s0.Degree f rest hFS hall hex]

/-- C6, witness: the amended validation theorem applied to two compatible
finite-field shares with distinct values but a zero modulus would panic, and
to the empty list gives `NoShares`. -/
theorem shareAddMul_validation_witness :
    ShareAdd [] = Except.error ShamirError.NoShares :=
  (shareAddMul_validation []).1.mpr rfl

/-! ## Only the first `degree+1` shares enter the interpolation -/

theorem combineSum_take (l : List Share) (k m : Nat) (h : m ≤ k) :
    combineSum (l.take k) m = combineSum l m := by
  unfold combineSum
  refine Finset.sum_congr rfl fun i hi => ?_
  have hik : i < k := lt_of_lt_of_le (Finset.mem_range.mp hi) h
  rw [getD_take_eq l k i hik]
  refine congrArg _ ?_
  refine Finset.prod_congr rfl fun j hj => ?_
  have hjm : j < m := Finset.mem_range.mp (Finset.mem_of_mem_erase hj)
  rw [getD_take_eq l k j (lt_of_lt_of_le hjm h)]

theorem hasDupX_take (l : List Share) (k m : Nat) (h : m ≤ k) :
    hasDupX (l.take k) m = hasDupX l m := by
  have key : hasDupX (l.take k) m = true ↔ hasDupX l m = true := by
    rw [hasDupX_eq_true_iff, hasDupX_eq_true_iff]
    constructor
    · rintro ⟨i, hi, j, hj, hij, hx⟩
      refine ⟨i, hi, j, hj, hij, ?_⟩
      rwa [getD_take_eq l k i (lt_of_lt_of_le hi h),
        getD_take_eq l k j (lt_of_lt_of_le hj h)] at hx
    · rintro ⟨i, hi, j, hj, hij, hx⟩
      refine ⟨i, hi, j, hj, hij, ?_⟩
      rwa [getD_take_eq l k i (lt_of_lt_of_le hi h),
        getD_take_eq l k j (lt_of_lt_of_le hj h)]
  cases hb : hasDupX l m with
  | true => exact key.mpr hb
  | false =>
    cases hb' : hasDupX (l.take k) m with
    | true => exact absurd (key.mp hb') (by simp [hb])
    | false => rfl

/-- C7, amended: on every share list with `shares[0].Degree ≥ 0` on which
`ShareCombine` succeeds, the result equals the result of `ShareCombine` on
just the first `degree+1` shares: shares beyond position `shares[0].Degree`
influence only the compatibility check, never the reconstructed value.  (For
a negative `Degree` the claim fails: the prefix is empty and yields
`NoShares`.) -/
theorem shareCombine_uses_prefix (s0 : Share) (rest : List Share) (v : Int)
    (hdeg : 0 ≤ s0.Degree)
    (hok : ShareCombine (s0 :: rest) = Except.ok v) :
    ShareCombine ((s0 :: rest).take (s0.Degree + 1).toNat) = Except.ok v := by
  have h1 : ¬ (((s0 :: rest : List Share).length : Int) ≤ s0.Degree) := by
    intro h
    rw [shareCombine_cons_tooFew s0 rest h] at hok
    cases hok
  have h2f : ((s0 :: rest).any fun s => !combineCompat s0 s) = false := by
    cases h2 : ((s0 :: rest).any fun s => !combineCompat s0 s) with
    | true =>
      rw [shareCombine_cons_incompat s0 rest h1 h2] at hok
      cases hok
    | false => rfl
  have hall := (combineAny_eq_false_iff s0 (s0 :: rest)).mp h2f
  have hm : (s0.Degree + 1).toNat = s0.Degree.toNat + 1 := by omega
  have htake : (s0 :: rest).take (s0.Degree + 1).toNat
      = s0 :: rest.take s0.Degree.toNat := by
    rw [hm, List.take_succ_cons]
  have hlen : s0.Degree.toNat ≤ rest.length := by
    simp only [List.length_cons] at h1
    omega
  have h1' : ¬ (((s0 :: rest.take s0.Degree.toNat : List Share).length : Int) ≤ s0.Degree) := by
    simp only [List.length_cons, List.length_take]
    omega
  have h2f' : ((s0 :: rest.take s0.Degree.toNat).any fun s => !combineCompat s0 s) = false := by
    refine (combineAny_eq_false_iff s0 _).mpr ?_
    intro s hs
    rcases List.mem_cons.mp hs with rfl | hmem
    · exact combineCompat_self s
    · exact hall s (List.mem_cons_of_mem _ (List.take_subset _ _ hmem))
  have e1 := shareCombine_cons_eq s0 rest h1 h2f
  have e2 := shareCombine_cons_eq s0 (rest.take s0.Degree.toNat) h1' h2f'
  rw [htake, e2, ← List.take_succ_cons, ← hm]
  have hsum : combineSum ((s0 :: rest).take (s0.Degree + 1).toNat) (s0.Degree + 1).toNat
      = combineSum (s0 :: rest) (s0.Degree + 1).toNat :=
    combineSum_take (s0 :: rest) _ _ le_rfl
  have hdup : hasDupX ((s0 :: rest).take (s0.Degree + 1).toNat) (s0.Degree + 1).toNat
      = hasDupX (s0 :: rest) (s0.Degree + 1).toNat :=
    hasDupX_take (s0 :: rest) _ _ le_rfl
  rw [hsum, hdup, ← e1]
  exact hok

/-! ## Exact Lagrange interpolation at zero over the rationals -/

theorem lagrange_sum_eval_zero (m : Nat) (x : Nat → ℚ)
    (hinj : ∀ i < m, ∀ j < m, i ≠ j → x i ≠ x j)
    (f : Polynomial ℚ) (hdeg : f.degree < (m : Nat)) :
    ∑ i ∈ Finset.range m, f.eval (x i) *
      ∏ j ∈ (Finset.range m).erase i, x j / (x j - x i) = f.coeff 0 := by
  have hvs : Set.InjOn x (Finset.range m : Finset Nat) := by
    intro i hi j hj hxy
    by_contra hne
    exact hinj i (Finset.mem_range.mp hi) j (Finset.mem_range.mp hj) hne hxy
  have hdeg' : f.degree < (Finset.range m).card := by
    simpa [Finset.card_range] using hdeg
  have hf := Lagrange.eq_interpolate hvs hdeg'
  conv_rhs => rw [Polynomial.coeff_zero_eq_eval_zero, hf]
  rw [Lagrange.interpolate_apply, Polynomial.eval_finset_sum]
  refine Finset.sum_congr rfl fun i hi => ?_
  rw [Polynomial.eval_mul, Polynomial.eval_C]
  refine congrArg _ ?_
  rw [Lagrange.basis, Polynomial.eval_prod]
  refine Finset.prod_congr rfl fun j hj => ?_
  obtain ⟨hjne, hjmem⟩ := Finset.mem_erase.mp hj
  have hne : x i ≠ x j :=
    hinj i (Finset.mem_range.mp hi) j (Finset.mem_range.mp hjmem) (fun h => hjne (h ▸ rfl))
  rw [Lagrange.basisDivisor, Polynomial.eval_mul, Polynomial.eval_C,
    Polynomial.eval_sub, Polynomial.eval_X, Polynomial.eval_C]
  have h1 : x i - x j ≠ 0 := sub_ne_zero.mpr hne
  have h2 : x j - x i ≠ 0 := sub_ne_zero.mpr (Ne.symm hne)
  field_simp
  ring

theorem nodeDiffProd_cast_ne_zero (x : Nat → Int) (m i : Nat)
    (hi : i < m) (hx : ∀ a < m, ∀ b < m, a ≠ b → x b ≠ x a) :
    ((nodeDiffProd x m i : Int) : ℚ) ≠ 0 := by
  unfold nodeDiffProd
  push_cast
  refine Finset.prod_ne_zero_iff.mpr fun j hj => ?_
  obtain ⟨hjne, hjm⟩ := Finset.mem_erase.mp hj
  have : x j ≠ x i := hx i hi j (Finset.mem_range.mp hjm) (fun h => hjne (h ▸ rfl))
  intro h
  rw [sub_eq_zero] at h
  exact this (by exact_mod_cast h)

theorem nodeDiffProdAll_mul_lagrangeAt0 (x y : Nat → Int) (m : Nat)
    (hx : ∀ a < m, ∀ b < m, a ≠ b → x b ≠ x a) :
    (nodeDiffProdAll x m : ℚ) * lagrangeAt0 x y m = (clearedSum x y m : ℚ) := by
  unfold lagrangeAt0 clearedSum
  rw [Finset.mul_sum, Int.cast_sum]
  refine Finset.sum_congr rfl fun i hi => ?_
  have him := Finset.mem_range.mp hi
  have hD := nodeDiffProd_cast_ne_zero x m i him hx
  have hM : nodeDiffProdAll x m
      = nodeDiffProd x m i * ∏ k ∈ (Finset.range m).erase i, nodeDiffProd x m k :=
    (Finset.mul_prod_erase _ _ hi).symm
  have hprod : ∏ j ∈ (Finset.range m).erase i, (x j : ℚ) / ((x j - x i : Int) : ℚ)
      = (∏ j ∈ (Finset.range m).erase i, (x j : ℚ)) / ((nodeDiffProd x m i : Int) : ℚ) := by
    rw [Finset.prod_div_distrib]
    unfold nodeDiffProd
    push_cast
    rfl
  rw [hprod, hM, clearedTerm]
  push_cast
  field_simp
  ring

theorem lagrangeAt0_eval_poly (m : Nat) (x : Nat → Int) (f : Polynomial Int)
    (hx : ∀ a < m, ∀ b < m, a ≠ b → x b ≠ x a)
    (hdeg : f.degree < (m : Nat)) :
    lagrangeAt0 x (fun i => f.eval (x i)) m = ((f.coeff 0 : Int) : ℚ) := by
  unfold lagrangeAt0
  have hinj : ∀ i < m, ∀ j < m, i ≠ j → ((x i : ℚ)) ≠ ((x j : ℚ)) := by
    intro i hi j hj hij h
    exact hx j hj i hi (fun hji => hij (hji ▸ rfl)) (by exact_mod_cast h)
  have hdeg' : (f.map (Int.castRingHom ℚ)).degree < (m : Nat) :=
    lt_of_le_of_lt (Polynomial.degree_map_le) hdeg
  have key := lagrange_sum_eval_zero m (fun i => (x i : ℚ)) hinj
    (f.map (Int.castRingHom ℚ)) hdeg'
  rw [Polynomial.coeff_map] at key
  calc ∑ i ∈ Finset.range m, ((f.eval (x i) : Int) : ℚ) *
        ∏ j ∈ (Finset.range m).erase i, (x j : ℚ) / ((x j - x i : Int) : ℚ)
      = ∑ i ∈ Finset.range m, (f.map (Int.castRingHom ℚ)).eval ((x i : ℚ)) *
        ∏ j ∈ (Finset.range m).erase i, (x j : ℚ) / ((x j : ℚ) - (x i : ℚ)) := by
        refine Finset.sum_congr rfl fun i hi => ?_
        rw [Polynomial.eval_intCast_map]
        refine congrArg _ (Finset.prod_congr rfl fun j hj => ?_)
        push_cast
        rfl
    _ = Int.castRingHom ℚ (f.coeff 0) := key
    _ = ((f.coeff 0 : Int) : ℚ) := rfl

theorem interpolation_core (p : Int) (hp : Prime p) (hppos : 0 < p)
    (m : Nat) (x y : Nat → Int)
    (hx : ∀ a < m, ∀ b < m, a ≠ b → ¬ (p ∣ (x b - x a)))
    (f : Polynomial Int) (hdeg : f.degree < (m : Nat))
    (hy : ∀ i < m, p ∣ (y i - f.eval (x i))) :
    ¬ (p ∣ ((lagrangeAt0 x y m).den : Int)) ∧
      Int.ModEq p ((lagrangeAt0 x y m).num)
        (f.coeff 0 * ((lagrangeAt0 x y m).den : Int)) := by
  have hxne : ∀ a < m, ∀ b < m, a ≠ b → x b ≠ x a := by
    intro a ha b hb hab h
    exact hx a ha b hb hab (by rw [h, sub_self]; exact dvd_zero p)
  have hML := nodeDiffProdAll_mul_lagrangeAt0 x y m hxne
  have hMG : (nodeDiffProdAll x m : ℚ) * ((f.coeff 0 : Int) : ℚ)
      = (clearedSum x (fun i => f.eval (x i)) m : ℚ) := by
    rw [← lagrangeAt0_eval_poly m x f hxne hdeg]
    exact nodeDiffProdAll_mul_lagrangeAt0 x _ m hxne
  have hMGint : nodeDiffProdAll x m * f.coeff 0
      = clearedSum x (fun i => f.eval (x i)) m := by
    exact_mod_cast hMG
  have hNG : p ∣ (clearedSum x y m - clearedSum x (fun i => f.eval (x i)) m) := by
    unfold clearedSum
    rw [← Finset.sum_sub_distrib]
    refine Finset.dvd_sum fun i hi => ?_
    rw [← sub_mul]
    exact Dvd.dvd.mul_right (hy i (Finset.mem_range.mp hi)) _
  have hpM : ¬ p ∣ nodeDiffProdAll x m := by
    unfold nodeDiffProdAll
    intro h
    obtain ⟨i, hi, hdi⟩ := (Prime.dvd_finset_prod_iff hp _).mp h
    unfold nodeDiffProd at hdi
    obtain ⟨j, hj, hdj⟩ := (Prime.dvd_finset_prod_iff hp _).mp hdi
    obtain ⟨hjne, hjm⟩ := Finset.mem_erase.mp hj
    exact hx i (Finset.mem_range.mp hi) j (Finset.mem_range.mp hjm)
      (fun h' => hjne (h' ▸ rfl)) hdj
  have hden0 : (((lagrangeAt0 x y m).den : Int) : ℚ) ≠ 0 := by
    have := (lagrangeAt0 x y m).den_nz
    exact_mod_cast fun h => this (by exact_mod_cast h)
  have hnum : (((lagrangeAt0 x y m).num : Int) : ℚ)
      = lagrangeAt0 x y m * (((lagrangeAt0 x y m).den : Int) : ℚ) := by
    have hden' : (((lagrangeAt0 x y m).den : Nat) : ℚ) ≠ 0 :=
      Nat.cast_ne_zero.mpr (lagrangeAt0 x y m).den_nz
    have h0 := (div_eq_iff hden').mp (Rat.num_div_den (lagrangeAt0 x y m))
    push_cast
    exact h0
  have hcross : clearedSum x y m * ((lagrangeAt0 x y m).den : Int)
      = nodeDiffProdAll x m * (lagrangeAt0 x y m).num := by
    have hq : (clearedSum x y m : ℚ) * (((lagrangeAt0 x y m).den : Int) : ℚ)
        = (nodeDiffProdAll x m : ℚ) * (((lagrangeAt0 x y m).num : Int) : ℚ) := by
      rw [← hML, hnum]
      ring
    exact_mod_cast hq
  have hpden : ¬ (p ∣ ((lagrangeAt0 x y m).den : Int)) := by
    intro hpd
    have h1 : p ∣ nodeDiffProdAll x m * (lagrangeAt0 x y m).num := by
      rw [← hcross]
      exact Dvd.dvd.mul_left hpd _
    rcases hp.dvd_or_dvd h1 with hM' | hnum'
    · exact hpM hM'
    · have hco := (lagrangeAt0 x y m).reduced
      have hd1 : p.natAbs ∣ (lagrangeAt0 x y m).num.natAbs :=
        Int.natAbs_dvd_natAbs.mpr hnum'
      have hd2 : p.natAbs ∣ (lagrangeAt0 x y m).den := by
        have h := Int.natAbs_dvd_natAbs.mpr hpd
        simpa using h
      have hdg : p.natAbs ∣ Nat.gcd (lagrangeAt0 x y m).num.natAbs
          (lagrangeAt0 x y m).den := Nat.dvd_gcd hd1 hd2
      rw [Nat.Coprime] at hco
      rw [hco] at hdg
      exact (Int.prime_iff_natAbs_prime.mp hp).ne_one (Nat.dvd_one.mp hdg)
  have hGN : Int.ModEq p (clearedSum x (fun i => f.eval (x i)) m) (clearedSum x y m) :=
    Int.modEq_iff_dvd.mpr hNG
  have hMnum : Int.ModEq p
      (nodeDiffProdAll x m * (lagrangeAt0 x y m).num)
      (nodeDiffProdAll x m * (f.coeff 0 * ((lagrangeAt0 x y m).den : Int))) := by
    calc nodeDiffProdAll x m * (lagrangeAt0 x y m).num
        = clearedSum x y m * ((lagrangeAt0 x y m).den : Int) := hcross.symm
      _ ≡ clearedSum x (fun i => f.eval (x i)) m *
            ((lagrangeAt0 x y m).den : Int) [ZMOD p] := (hGN.symm).mul_right _
      _ = nodeDiffProdAll x m * (f.coeff 0 * ((lagrangeAt0 x y m).den : Int)) := by
          rw [← hMGint]
          ring
  have hgcd : Int.gcd p (nodeDiffProdAll x m) = 1 := by
    have hpn : Nat.Prime p.natAbs := Int.prime_iff_natAbs_prime.mp hp
    rcases (Nat.Prime.eq_one_or_self_of_dvd hpn _
      (Nat.gcd_dvd_left p.natAbs (nodeDiffProdAll x m).natAbs)) with h1 | hself
    · exact h1
    · exfalso
      refine hpM (Int.natAbs_dvd_natAbs.mp ?_)
      rw [← hself]
      exact Nat.gcd_dvd_right _ _
  have hcancel := Int.ModEq.cancel_left_div_gcd hppos hMnum
  rw [hgcd] at hcancel
  simp only [Nat.cast_one, Int.ediv_one] at hcancel
  exact ⟨hpden, hcancel⟩

theorem goModInverse_exists (p den : Int) (hp : Prime p) (hppos : 0 < p)
    (hden : 0 < den) (hnd : ¬ p ∣ den) :
    ∃ inv, goModInverse den p = some inv ∧ Int.ModEq p (den * inv) 1 := by
  have hpn : Nat.Prime p.natAbs := Int.prime_iff_natAbs_prime.mp hp
  have hp1 : 1 < p.natAbs := hpn.one_lt
  have hco : Nat.Coprime den.natAbs p.natAbs := by
    rcases (Nat.Prime.eq_one_or_self_of_dvd hpn _
      (Nat.gcd_dvd_right den.natAbs p.natAbs)) with h1 | hself
    · exact h1
    · exfalso
      refine hnd (Int.natAbs_dvd_natAbs.mp ?_)
      rw [← hself]
      exact Nat.gcd_dvd_left _ _
  obtain ⟨w, hw⟩ := Nat.exists_mul_emod_eq_one_of_coprime hco hp1
  have hppos' : 0 < p.natAbs := by omega
  have hk0lt : w % p.natAbs < p.natAbs := Nat.mod_lt _ hppos'
  have hk0 : den.natAbs * (w % p.natAbs) % p.natAbs = 1 := by
    rw [Nat.mul_mod, Nat.mod_mod_of_dvd _ dvd_rfl, ← Nat.mul_mod]
    exact hw
  have hpcast : ((p.natAbs : Nat) : Int) = p := Int.natAbs_of_nonneg (le_of_lt hppos)
  have hdcast : ((den.natAbs : Nat) : Int) = den := Int.natAbs_of_nonneg (le_of_lt hden)
  have hpred : den * ((w % p.natAbs : Nat) : Int) % p = 1 % p := by
    have hp1' : (1 : Int) < p := by
      have := hp.ne_one
      have h2 := Int.prime_iff_natAbs_prime.mp hp
      omega
    have h1p : (1 : Int) % p = 1 := Int.emod_eq_of_lt (by omega) hp1'
    rw [h1p, ← hdcast, ← hpcast]
    exact_mod_cast congrArg (fun t : Nat => (t : Int)) hk0
  have hmem : (w % p.natAbs) ∈ List.range p.natAbs := List.mem_range.mpr hk0lt
  have hsome : ((List.range p.natAbs).find? fun k : Nat =>
      den * (k : Int) % p == 1 % p).isSome = true := by
    rw [List.find?_isSome]
    exact ⟨w % p.natAbs, hmem, by simpa using hpred⟩
  obtain ⟨k, hk⟩ := Option.isSome_iff_exists.mp hsome
  have hkprop := List.find?_some hk
  have hkeq : den * (k : Int) % p = 1 % p := by simpa using hkprop
  refine ⟨(k : Int), ?_, ?_⟩
  · unfold goModInverse
    rw [hk]
    rfl
  · exact hkeq

theorem map_range_cons (sh : Nat → Share) (d : Nat) :
    (List.range (d + 1)).map sh = sh 0 :: ((List.range d).map fun t => sh (t + 1)) := by
  rw [List.range_succ_eq_map, List.map_cons, List.map_map]
  rfl

theorem combineSum_map_range (sh : Nat → Share) (m : Nat) :
    combineSum ((List.range m).map sh) m
      = lagrangeAt0 (fun i => (sh i).X) (fun i => (sh i).Y) m := by
  unfold combineSum lagrangeAt0
  refine Finset.sum_congr rfl fun i hi => ?_
  rw [getD_map_range sh m i (Finset.mem_range.mp hi)]
  refine congrArg _ (Finset.prod_congr rfl fun j hj => ?_)
  rw [getD_map_range sh m j (Finset.mem_range.mp (Finset.mem_of_mem_erase hj))]

theorem hasDupX_map_range_eq_false (sh : Nat → Share) (m : Nat)
    (hx : ∀ a < m, ∀ b < m, a ≠ b → (sh b).X ≠ (sh a).X) :
    hasDupX ((List.range m).map sh) m = false := by
  rw [hasDupX_eq_false_iff]
  intro i hi j hj hij
  rw [getD_map_range sh m i hi, getD_map_range sh m j hj]
  exact fun h => hx i hi j hj (fun h' => hij (h' ▸ rfl)) (h ▸ rfl)

theorem shareCombine_ff_of_poly (p : Int) (hp : Prime p) (hppos : 0 < p)
    (d : Nat) (sh : Nat → Share)
    (hFS : ∀ k < d + 1, (sh k).FieldSize = some p)
    (hDeg : ∀ k < d + 1, (sh k).Degree = (d : Int))
    (f : Polynomial Int) (hdeg : f.degree < ((d + 1 : Nat) : Nat))
    (hx : ∀ a < d + 1, ∀ b < d + 1, a ≠ b → ¬ (p ∣ ((sh b).X - (sh a).X)))
    (hy : ∀ i < d + 1, p ∣ ((sh i).Y - f.eval ((sh i).X))) :
    ShareCombine ((List.range (d + 1)).map sh) = Except.ok (f.coeff 0 % p) := by
  have hl := map_range_cons sh d
  have hd0 : (0 : Nat) < d + 1 := by omega
  have hs0FS := hFS 0 hd0
  have hs0Deg := hDeg 0 hd0
  have hlen : ((List.range (d + 1)).map sh).length = d + 1 := by
    rw [List.length_map, List.length_range]
  have h1 : ¬ (((sh 0 :: ((List.range d).map fun t => sh (t + 1)) : List Share).length : Int)
      ≤ (sh 0).Degree) := by
    rw [← hl, hlen, hs0Deg]
    push_cast
    omega
  have hmem_form : ∀ s ∈ (List.range (d + 1)).map sh, ∃ k < d + 1, s = sh k := by
    intro s hs
    obtain ⟨k, hk, rfl⟩ := List.mem_map.mp hs
    exact ⟨k, List.mem_range.mp hk, rfl⟩
  have h2f : ((sh 0 :: ((List.range d).map fun t => sh (t + 1))).any
      fun s => !combineCompat (sh 0) s) = false := by
    rw [← hl]
    refine (combineAny_eq_false_iff _ _).mpr fun s hs => ?_
    obtain ⟨k, hk, rfl⟩ := hmem_form s hs
    exact (combineCompat_eq_true_iff _ _).mpr
      ⟨by rw [hs0FS, hFS k hk], by rw [hs0Deg, hDeg k hk]⟩
  have hm : ((sh 0).Degree + 1).toNat = d + 1 := by
    rw [hs0Deg]
    omega
  have hxne : ∀ a < d + 1, ∀ b < d + 1, a ≠ b → (sh b).X ≠ (sh a).X := by
    intro a ha b hb hab h
    exact hx a ha b hb hab (by rw [h, sub_self]; exact dvd_zero p)
  have hdup : hasDupX (sh 0 :: ((List.range d).map fun t => sh (t + 1))) (d + 1) = false := by
    rw [← hl]
    exact hasDupX_map_range_eq_false sh (d + 1) hxne
  have hsum : combineSum (sh 0 :: ((List.range d).map fun t => sh (t + 1))) (d + 1)
      = lagrangeAt0 (fun i => (sh i).X) (fun i => (sh i).Y) (d + 1) := by
    rw [← hl]
    exact combineSum_map_range sh (d + 1)
  obtain ⟨hpden, hmod⟩ := interpolation_core p hp hppos (d + 1)
    (fun i => (sh i).X) (fun i => (sh i).Y) hx f hdeg hy
  have hdenpos : (0 : Int)
      < ((lagrangeAt0 (fun i => (sh i).X) (fun i => (sh i).Y) (d + 1)).den : Int) := by
    exact_mod_cast Nat.pos_of_ne_zero
      (lagrangeAt0 (fun i => (sh i).X) (fun i => (sh i).Y) (d + 1)).den_nz
  obtain ⟨inv, hInvSome, hinv⟩ := goModInverse_exists p _ hp hppos hdenpos hpden
  have hp0 : ¬ (p = 0) := by omega
  rw [hl, shareCombine_cons_eq (sh 0) _ h1 h2f, hm, if_neg (by rw [hdup]; simp),
    hs0FS]
  dsimp only
  rw [hsum, hInvSome]
  dsimp only
  rw [if_neg hp0]
  refine congrArg Except.ok ?_
  have hfinal : Int.ModEq p
      ((lagrangeAt0 (fun i => (sh i).X) (fun i => (sh i).Y) (d + 1)).num * inv)
      (f.coeff 0) := by
    calc (lagrangeAt0 (fun i => (sh i).X) (fun i => (sh i).Y) (d + 1)).num * inv
        ≡ f.coeff 0 *
            ((lagrangeAt0 (fun i => (sh i).X) (fun i => (sh i).Y) (d + 1)).den : Int)
            * inv [ZMOD p] := hmod.mul_right inv
      _ = f.coeff 0 *
            (((lagrangeAt0 (fun i => (sh i).X) (fun i => (sh i).Y) (d + 1)).den : Int)
            * inv) := by ring
      _ ≡ f.coeff 0 * 1 [ZMOD p] := (hinv).mul_left _
      _ = f.coeff 0 := by ring
  exact hfinal

theorem shareCombine_int_of_poly (d : Nat) (sh : Nat → Share)
    (hFS : ∀ k < d + 1, (sh k).FieldSize = none)
    (hDeg : ∀ k < d + 1, (sh k).Degree = (d : Int))
    (F : Int) (hFac : (sh 0).Factor = some F) (hF0 : F ≠ 0)
    (f : Polynomial Int) (hdeg : f.degree < ((d + 1 : Nat) : Nat))
    (hxne : ∀ a < d + 1, ∀ b < d + 1, a ≠ b → (sh b).X ≠ (sh a).X)
    (hy : ∀ i < d + 1, (sh i).Y = f.eval ((sh i).X)) :
    ShareCombine ((List.range (d + 1)).map sh) = Except.ok (Int.ediv (f.coeff 0) F) := by
  have hl := map_range_cons sh d
  have hd0 : (0 : Nat) < d + 1 := by omega
  have hs0FS := hFS 0 hd0
  have hs0Deg := hDeg 0 hd0
  have hlen : ((List.range (d + 1)).map sh).length = d + 1 := by
    rw [List.length_map, List.length_range]
  have h1 : ¬ (((sh 0 :: ((List.range d).map fun t => sh (t + 1)) : List Share).length : Int)
      ≤ (sh 0).Degree) := by
    rw [← hl, hlen, hs0Deg]
    push_cast
    omega
  have hmem_form : ∀ s ∈ (List.range (d + 1)).map sh, ∃ k < d + 1, s = sh k := by
    intro s hs
    obtain ⟨k, hk, rfl⟩ := List.mem_map.mp hs
    exact ⟨k, List.mem_range.mp hk, rfl⟩
  have h2f : ((sh 0 :: ((List.range d).map fun t => sh (t + 1))).any
      fun s => !combineCompat (sh 0) s) = false := by
    rw [← hl]
    refine (combineAny_eq_false_iff _ _).mpr fun s hs => ?_
    obtain ⟨k, hk, rfl⟩ := hmem_form s hs
    exact (combineCompat_eq_true_iff _ _).mpr
      ⟨by rw [hs0FS, hFS k hk], by rw [hs0Deg, hDeg k hk]⟩
  have hm : ((sh 0).Degree + 1).toNat = d + 1 := by
    rw [hs0Deg]
    omega
  have hdup : hasDupX (sh 0 :: ((List.range d).map fun t => sh (t + 1))) (d + 1) = false := by
    rw [← hl]
    exact hasDupX_map_range_eq_false sh (d + 1) hxne
  have hLval : lagrangeAt0 (fun i => (sh i).X) (fun i => (sh i).Y) (d + 1)
      = ((f.coeff 0 : Int) : ℚ) := by
    have hcongr : lagrangeAt0 (fun i => (sh i).X) (fun i => (sh i).Y) (d + 1)
        = lagrangeAt0 (fun i => (sh i).X) (fun i => f.eval ((sh i).X)) (d + 1) := by
      unfold lagrangeAt0
      refine Finset.sum_congr rfl fun i hi => ?_
      dsimp only
      rw [hy i (Finset.mem_range.mp hi)]
    rw [hcongr]
    exact lagrangeAt0_eval_poly (d + 1) (fun i => (sh i).X) f hxne hdeg
  have hsum : combineSum (sh 0 :: ((List.range d).map fun t => sh (t + 1))) (d + 1)
      = ((f.coeff 0 : Int) : ℚ) := by
    rw [← hl, combineSum_map_range sh (d + 1), hLval]
  rw [hl, shareCombine_cons_eq (sh 0) _ h1 h2f, hm, if_neg (by rw [hdup]; simp),
    hs0FS]
  dsimp only
  rw [hsum]
  rw [if_pos (Rat.den_intCast (f.coeff 0)), hFac]
  dsimp only
  rw [if_neg hF0, Rat.num_intCast]

/-! ## Properties of the sharing polynomial
`f(t) = secret + Σ_{j<degree} coeff_j · t^(j+1)`, evaluated by both sharing
functions at the points `1..n`. -/

theorem sharePoly_eval (secret : Int) (degree : Nat) (coefficients : List Int) (t : Int) :
    (Polynomial.C secret + ∑ j ∈ Finset.range degree,
        Polynomial.C (coefficients.getD j 0) * Polynomial.X ^ (j + 1)).eval t
      = secret + ∑ j ∈ Finset.range degree, coefficients.getD j 0 * t ^ (j + 1) := by
  rw [Polynomial.eval_add, Polynomial.eval_C, Polynomial.eval_finset_sum]
  refine congrArg _ (Finset.sum_congr rfl fun j hj => ?_)
  rw [Polynomial.eval_mul, Polynomial.eval_C, Polynomial.eval_pow, Polynomial.eval_X]

theorem sharePoly_coeff_zero (secret : Int) (degree : Nat) (coefficients : List Int) :
    (Polynomial.C secret + ∑ j ∈ Finset.range degree,
        Polynomial.C (coefficients.getD j 0) * Polynomial.X ^ (j + 1)).coeff 0
      = secret := by
  rw [Polynomial.coeff_add, Polynomial.coeff_C, Polynomial.finset_sum_coeff]
  simp [Polynomial.coeff_C_mul, Polynomial.coeff_X_pow]

theorem sharePoly_degree_le (secret : Int) (degree : Nat) (coefficients : List Int) :
    (Polynomial.C secret + ∑ j ∈ Finset.range degree,
        Polynomial.C (coefficients.getD j 0) * Polynomial.X ^ (j + 1)).degree
      ≤ (degree : Nat) := by
  refine le_trans (Polynomial.degree_add_le _ _) (max_le ?_ ?_)
  · exact le_trans Polynomial.degree_C_le
      (by exact_mod_cast WithBot.coe_le_coe.mpr (Nat.zero_le degree))
  · refine le_trans (Polynomial.degree_sum_le _ _) ?_
    refine Finset.sup_le fun j hj => ?_
    refine le_trans (Polynomial.degree_mul_le _ _) ?_
    refine le_trans (add_le_add Polynomial.degree_C_le
      (le_of_eq (Polynomial.degree_X_pow (j + 1)))) ?_
    rw [zero_add]
    exact_mod_cast WithBot.coe_le_coe.mpr
      (Nat.succ_le_of_lt (Finset.mem_range.mp hj))

theorem sharePoly_degree_lt (secret : Int) (degree : Nat) (coefficients : List Int) :
    (Polynomial.C secret + ∑ j ∈ Finset.range degree,
        Polynomial.C (coefficients.getD j 0) * Polynomial.X ^ (j + 1)).degree
      < ((degree + 1 : Nat) : Nat) := by
  refine lt_of_le_of_lt (sharePoly_degree_le secret degree coefficients) ?_
  exact_mod_cast WithBot.coe_lt_coe.mpr (Nat.lt_succ_self degree)

/-! ## Round-trip theorems -/

theorem shareFiniteField_getD (secret p : Int) (d n : Nat) (c : List Int)
    (k : Nat) (hk : k < n) :
    (ShareFiniteField secret p d n c).getD k default = ffShare secret p d c k := by
  unfold ShareFiniteField
  exact getD_map_range _ n k hk

theorem shareIntegers_getD (secret B : Int) (σp d n : Nat) (c : List Int)
    (k : Nat) (hk : k < n) :
    (ShareIntegers secret B σp d n c).getD k default = intShare secret d n c k := by
  unfold ShareIntegers
  exact getD_map_range _ n k hk

/-- C1, amended: for every secret `s`, positive prime modulus `p`, degree
`d ≥ 0`, share count `n > d`, every choice of the `d` random coefficients in
`[0, p)`, and any selection of `d+1` shares of `ShareFiniteField(s, p, d, n)`
whose indices (hence evaluation points) are pairwise distinct modulo `p` —
automatic whenever `p > n` — `ShareCombine` succeeds and returns `s mod p`.
(Without the distinctness-mod-`p` condition the round-trip fails; see the
counterexample with `p = 2`.) -/
theorem shareFiniteField_roundtrip (secret p : Int) (hp : Prime p) (hppos : 0 < p)
    (d n : Nat) (hn : d < n) (coefficients : List Int)
    (hlen : coefficients.length = d)
    (hrange : ∀ c ∈ coefficients, 0 ≤ c ∧ c < p)
    (sel : Nat → Nat) (hseln : ∀ t < d + 1, sel t < n)
    (hdist : ∀ a < d + 1, ∀ b < d + 1, a ≠ b →
      ¬ (p ∣ ((sel b : Int) - (sel a : Int)))) :
    ShareCombine ((List.range (d + 1)).map
      fun t => (ShareFiniteField secret p d n coefficients).getD (sel t) default)
      = Except.ok (secret % p) := by
  have hsh : ∀ t < d + 1,
      (ShareFiniteField secret p d n coefficients).getD (sel t) default
        = ffShare secret p d coefficients (sel t) := fun t ht =>
    shareFiniteField_getD secret p d n coefficients (sel t) (hseln t ht)
  have key := shareCombine_ff_of_poly p hp hppos d
    (fun t => (ShareFiniteField secret p d n coefficients).getD (sel t) default)
    (fun k hk => by dsimp only; rw [hsh k hk]; rfl)
    (fun k hk => by dsimp only; rw [hsh k hk]; rfl)
    (Polynomial.C secret + ∑ j ∈ Finset.range d,
      Polynomial.C (coefficients.getD j 0) * Polynomial.X ^ (j + 1))
    (sharePoly_degree_lt secret d coefficients)
    (fun a ha b hb hab => by
      dsimp only
      rw [hsh a ha, hsh b hb]
      intro hdvd
      refine hdist a ha b hb hab ?_
      have : ((sel b : Int) + 1) - ((sel a : Int) + 1)
          = (sel b : Int) - (sel a : Int) := by ring
      rw [← this]
      exact hdvd)
    (fun i hi => by
      dsimp only
      rw [hsh i hi]
      show p ∣ (ffShare secret p d coefficients (sel i)).Y - _
      rw [sharePoly_eval]
      unfold ffShare
      dsimp only
      have hmod : Int.ModEq p
          ((secret + ∑ j ∈ Finset.range d,
            coefficients.getD j 0 * ((sel i : Int) + 1) ^ (j + 1)) % p)
          (secret + ∑ j ∈ Finset.range d,
            coefficients.getD j 0 * ((sel i : Int) + 1) ^ (j + 1)) :=
        Int.emod_emod_of_dvd _ dvd_rfl
      exact (Int.ModEq.dvd hmod.symm))
  rw [key, sharePoly_coeff_zero]

/-- C2: for every secret `s` with `|s| ≤ B`, security parameter `σ`, degree
`d ≥ 0`, share count `n > d`, and every choice of the `d` random coefficients
drawn below `coefficientUpperBound`, `ShareCombine` on any `(d+1)`-element
subset of the shares of `ShareIntegers(s, B, σ, d, n)` succeeds and returns
exactly `s` (no modular reduction), the accumulated scale factor `n!` being
divided out. -/
theorem shareIntegers_roundtrip (secret B : Int) (statSecParam d n : Nat)
    (hn : d < n) (hB : |secret| ≤ B) (coefficients : List Int)
    (hlen : coefficients.length = d)
    (hrange : ∀ c ∈ coefficients, 0 ≤ c ∧ c < coefficientUpperBound B statSecParam n)
    (sel : Nat → Nat) (hseln : ∀ t < d + 1, sel t < n)
    (hinj : ∀ a < d + 1, ∀ b < d + 1, a ≠ b → sel b ≠ sel a) :
    ShareCombine ((List.range (d + 1)).map
      fun t => (ShareIntegers secret B statSecParam d n coefficients).getD (sel t) default)
      = Except.ok secret := by
  have hsh : ∀ t < d + 1,
      (ShareIntegers secret B statSecParam d n coefficients).getD (sel t) default
        = intShare secret d n coefficients (sel t) := fun t ht =>
    shareIntegers_getD secret B statSecParam d n coefficients (sel t) (hseln t ht)
  have hF0 : factorial n ≠ 0 := by
    unfold factorial
    exact_mod_cast Nat.factorial_ne_zero n
  have key := shareCombine_int_of_poly d
    (fun t => (ShareIntegers secret B statSecParam d n coefficients).getD (sel t) default)
    (fun k hk => by dsimp only; rw [hsh k hk]; rfl)
    (fun k hk => by dsimp only; rw [hsh k hk]; rfl)
    (factorial n)
    (by
      dsimp only
      rw [hsh 0 (by omega)]
      rfl)
    hF0
    (Polynomial.C (secret * factorial n) + ∑ j ∈ Finset.range d,
      Polynomial.C (coefficients.getD j 0) * Polynomial.X ^ (j + 1))
    (sharePoly_degree_lt (secret * factorial n) d coefficients)
    (fun a ha b hb hab => by
      dsimp only
      rw [hsh a ha, hsh b hb]
      intro h
      refine hinj a ha b hb hab ?_
      have : ((sel b : Int)) = ((sel a : Int)) := by
        have hx := h
        unfold intShare at hx
        dsimp only at hx
        omega
      exact_mod_cast this)
    (fun i hi => by
      dsimp only
      rw [hsh i hi, sharePoly_eval]
      rfl)
  rw [key, sharePoly_coeff_zero]
  refine congrArg Except.ok ?_
  exact Int.mul_ediv_cancel secret hF0

/-! ## Pointwise homomorphic operations on a pair of shares -/

theorem shareAdd_pair_ff (a b : Share) (p : Int) (hFS : a.FieldSize = some p)
    (hp : p ≠ 0) (hc : opCompat a b = true) :
    ShareAdd [a, b] = Except.ok
      { FieldSize := a.FieldSize, Factor := a.Factor, Degree := a.Degree,
        X := a.X, Y := (a.Y + b.Y) % p } := by
  unfold ShareAdd
  simp only [shareAddLoop, hc, if_true, hFS]
  rw [if_neg hp]
  rfl

theorem shareAdd_pair_int (a b : Share) (hFS : a.FieldSize = none)
    (hc : opCompat a b = true) :
    ShareAdd [a, b] = Except.ok
      { FieldSize := a.FieldSize, Factor := a.Factor, Degree := a.Degree,
        X := a.X, Y := a.Y + b.Y } := by
  unfold ShareAdd
  simp only [shareAddLoop, hc, if_true, hFS]
  rfl

theorem shareMul_pair_ff_nofac (a b : Share) (p : Int) (hFS : a.FieldSize = some p)
    (hp : p ≠ 0) (hfac : a.Factor = none) (hc : opCompat a b = true) :
    ShareMul [a, b] = Except.ok
      { FieldSize := a.FieldSize, Factor := none, Degree := a.Degree + b.Degree,
        X := a.X, Y := a.Y * b.Y % p } := by
  unfold ShareMul
  simp only [shareMulLoop, hc, if_true, hFS, hfac]
  rw [if_neg hp]

/-- Structural facts about a successful two-share `ShareMul`: the degree of
the product share is the sum of the input degrees, and when both inputs carry
a scale factor the output factor is their product. -/
theorem shareMul_pair_degree_factor (a b out : Share)
    (h : ShareMul [a, b] = Except.ok out) :
    out.Degree = a.Degree + b.Degree ∧
      (∀ fa fb, a.Factor = some fa → b.Factor = some fb →
        out.Factor = some (fa * fb)) := by
  unfold ShareMul at h
  by_cases hc : opCompat a b = true
  · simp only [shareMulLoop, hc, if_true] at h
    cases hFS : a.FieldSize with
    | some p =>
      rw [hFS] at h
      dsimp only at h
      by_cases hp : p = 0
      · rw [if_pos hp] at h
        cases h
      · rw [if_neg hp] at h
        cases hfa : a.Factor with
        | none =>
          rw [hfa] at h
          dsimp only at h
          cases h
          exact ⟨rfl, fun fa fb hfa' hfb => by cases hfa'⟩
        | some fa =>
          rw [hfa] at h
          dsimp only at h
          cases hfb : b.Factor with
          | none =>
            rw [hfb] at h
            cases h
          | some fb =>
            rw [hfb] at h
            dsimp only at h
            cases h
            refine ⟨rfl, fun fa' fb' hfa' hfb' => ?_⟩
            have h1 := Option.some.inj hfa'
            have h2 := Option.some.inj hfb'
            subst h1
            subst h2
            rfl
    | none =>
      rw [hFS] at h
      dsimp only at h
      cases hfa : a.Factor with
      | none =>
        rw [hfa] at h
        dsimp only at h
        cases h
        exact ⟨rfl, fun fa fb hfa' hfb => by cases hfa'⟩
      | some fa =>
        rw [hfa] at h
        dsimp only at h
        cases hfb : b.Factor with
        | none =>
          rw [hfb] at h
          cases h
        | some fb =>
          rw [hfb] at h
          dsimp only at h
          cases h
          refine ⟨rfl, fun fa' fb' hfa' hfb' => ?_⟩
          have h1 := Option.some.inj hfa'
          have h2 := Option.some.inj hfb'
          subst h1
          subst h2
          rfl
  · simp only [shareMulLoop, hc, if_false] at h
    cases h

/-- C4, amended: sharing two secrets with the same parameters, adding the
shares pointwise with `ShareAdd` (which succeeds), and running `ShareCombine`
on any `(d+1)`-subset of the sums yields `(sA + sB) mod p` over a finite
field — provided the chosen evaluation points are pairwise distinct modulo
`p` (automatic for `p > n`; without it the counterexample at `p = 2`
applies) — and exactly `sA + sB` in the integer domain, for every choice of
the random coefficients of both sharings. -/
theorem shareAdd_homomorphism :
    (∀ (sA sB p : Int), Prime p → 0 < p → ∀ (d n : Nat), d < n →
      ∀ (cA cB : List Int), cA.length = d → cB.length = d →
      ∀ (sel : Nat → Nat), (∀ t < d + 1, sel t < n) →
      (∀ a < d + 1, ∀ b < d + 1, a ≠ b →
        ¬ (p ∣ ((sel b : Int) - (sel a : Int)))) →
      (∀ t < d + 1, ∃ ct, ShareAdd
        [(ShareFiniteField sA p d n cA).getD (sel t) default,
         (ShareFiniteField sB p d n cB).getD (sel t) default] = Except.ok ct) ∧
      (∀ c : Nat → Share, (∀ t < d + 1, ShareAdd
        [(ShareFiniteField sA p d n cA).getD (sel t) default,
         (ShareFiniteField sB p d n cB).getD (sel t) default] = Except.ok (c t)) →
        ShareCombine ((List.range (d + 1)).map c) = Except.ok ((sA + sB) % p))) ∧
    (∀ (sA sB BA BB : Int) (σA σB : Nat), ∀ (d n : Nat), d < n →
      ∀ (cA cB : List Int), cA.length = d → cB.length = d →
      ∀ (sel : Nat → Nat), (∀ t < d + 1, sel t < n) →
      (∀ a < d + 1, ∀ b < d + 1, a ≠ b → sel b ≠ sel a) →
      (∀ t < d + 1, ∃ ct, ShareAdd
        [(ShareIntegers sA BA σA d n cA).getD (sel t) default,
         (ShareIntegers sB BB σB d n cB).getD (sel t) default] = Except.ok ct) ∧
      (∀ c : Nat → Share, (∀ t < d + 1, ShareAdd
        [(ShareIntegers sA BA σA d n cA).getD (sel t) default,
         (ShareIntegers sB BB σB d n cB).getD (sel t) default] = Except.ok (c t)) →
        ShareCombine ((List.range (d + 1)).map c) = Except.ok (sA + sB))) := by
  constructor
  · intro sA sB p hp hppos d n hn cA cB hlA hlB sel hseln hdist
    have hp0 : p ≠ 0 := by
      intro h
      rw [h] at hppos
      exact lt_irrefl 0 hppos
    have hshA : ∀ t < d + 1,
        (ShareFiniteField sA p d n cA).getD (sel t) default
          = ffShare sA p d cA (sel t) := fun t ht =>
      shareFiniteField_getD sA p d n cA (sel t) (hseln t ht)
    have hshB : ∀ t < d + 1,
        (ShareFiniteField sB p d n cB).getD (sel t) default
          = ffShare sB p d cB (sel t) := fun t ht =>
      shareFiniteField_getD sB p d n cB (sel t) (hseln t ht)
    have hcompat : ∀ t < d + 1,
        opCompat (ffShare sA p d cA (sel t)) (ffShare sB p d cB (sel t)) = true := by
      intro t ht
      exact (opCompat_eq_true_iff _ _).mpr ⟨rfl, rfl, rfl⟩
    have hpair : ∀ t < d + 1, ShareAdd
        [(ShareFiniteField sA p d n cA).getD (sel t) default,
         (ShareFiniteField sB p d n cB).getD (sel t) default] = Except.ok
        { FieldSize := some p, Factor := none, Degree := (d : Int),
          X := (sel t : Int) + 1,
          Y := ((ffShare sA p d cA (sel t)).Y + (ffShare sB p d cB (sel t)).Y) % p } := by
      intro t ht
      rw [hshA t ht, hshB t ht]
      exact shareAdd_pair_ff _ _ p rfl hp0 (hcompat t ht)
    refine ⟨fun t ht => ⟨_, hpair t ht⟩, ?_⟩
    intro c hc
    have hct : ∀ t < d + 1, c t =
        { FieldSize := some p, Factor := none, Degree := (d : Int),
          X := (sel t : Int) + 1,
          Y := ((ffShare sA p d cA (sel t)).Y + (ffShare sB p d cB (sel t)).Y) % p } := by
      intro t ht
      have h1 := hc t ht
      rw [hpair t ht] at h1
      exact (Except.ok.inj h1).symm
    have key := shareCombine_ff_of_poly p hp hppos d c
      (fun k hk => by rw [hct k hk])
      (fun k hk => by rw [hct k hk])
      ((Polynomial.C sA + ∑ j ∈ Finset.range d,
          Polynomial.C (cA.getD j 0) * Polynomial.X ^ (j + 1)) +
       (Polynomial.C sB + ∑ j ∈ Finset.range d,
          Polynomial.C (cB.getD j 0) * Polynomial.X ^ (j + 1)))
      (lt_of_le_of_lt (Polynomial.degree_add_le _ _)
        (max_lt (sharePoly_degree_lt sA d cA) (sharePoly_degree_lt sB d cB)))
      (fun a ha b hb hab => by
        rw [hct a ha, hct b hb]
        intro hdvd
        refine hdist a ha b hb hab ?_
        have heq : ((sel b : Int) + 1) - ((sel a : Int) + 1)
            = (sel b : Int) - (sel a : Int) := by ring
        rw [← heq]
        exact hdvd)
      (fun i hi => by
        rw [hct i hi]
        show p ∣ _ - _
        rw [Polynomial.eval_add, sharePoly_eval, sharePoly_eval]
        dsimp only
        have h1 : Int.ModEq p ((ffShare sA p d cA (sel i)).Y)
            (sA + ∑ j ∈ Finset.range d, cA.getD j 0 * ((sel i : Int) + 1) ^ (j + 1)) := by
          unfold ffShare
          exact Int.emod_emod_of_dvd _ dvd_rfl
        have h2 : Int.ModEq p ((ffShare sB p d cB (sel i)).Y)
            (sB + ∑ j ∈ Finset.range d, cB.getD j 0 * ((sel i : Int) + 1) ^ (j + 1)) := by
          unfold ffShare
          exact Int.emod_emod_of_dvd _ dvd_rfl
        have h3 : Int.ModEq p
            (((ffShare sA p d cA (sel i)).Y + (ffShare sB p d cB (sel i)).Y) % p)
            ((ffShare sA p d cA (sel i)).Y + (ffShare sB p d cB (sel i)).Y) :=
          Int.emod_emod_of_dvd _ dvd_rfl
        have h4 := h3.trans (h1.add h2)
        exact (h4.symm).dvd)
    rw [key, Polynomial.coeff_add, sharePoly_coeff_zero, sharePoly_coeff_zero]
  · intro sA sB BA BB σA σB d n hn cA cB hlA hlB sel hseln hinj
    have hshA : ∀ t < d + 1,
        (ShareIntegers sA BA σA d n cA).getD (sel t) default
          = intShare sA d n cA (sel t) := fun t ht =>
      shareIntegers_getD sA BA σA d n cA (sel t) (hseln t ht)
    have hshB : ∀ t < d + 1,
        (ShareIntegers sB BB σB d n cB).getD (sel t) default
          = intShare sB d n cB (sel t) := fun t ht =>
      shareIntegers_getD sB BB σB d n cB (sel t) (hseln t ht)
    have hcompat : ∀ t < d + 1,
        opCompat (intShare sA d n cA (sel t)) (intShare sB d n cB (sel t)) = true := by
      intro t ht
      exact (opCompat_eq_true_iff _ _).mpr ⟨rfl, rfl, rfl⟩
    have hpair : ∀ t < d + 1, ShareAdd
        [(ShareIntegers sA BA σA d n cA).getD (sel t) default,
         (ShareIntegers sB BB σB d n cB).getD (sel t) default] = Except.ok
        { FieldSize := none, Factor := some (factorial n), Degree := (d : Int),
          X := (sel t : Int) + 1,
          Y := (intShare sA d n cA (sel t)).Y + (intShare sB d n cB (sel t)).Y } := by
      intro t ht
      rw [hshA t ht, hshB t ht]
      exact shareAdd_pair_int _ _ rfl (hcompat t ht)
    refine ⟨fun t ht => ⟨_, hpair t ht⟩, ?_⟩
    intro c hc
    have hct : ∀ t < d + 1, c t =
        { FieldSize := none, Factor := some (factorial n), Degree := (d : Int),
          X := (sel t : Int) + 1,
          Y := (intShare sA d n cA (sel t)).Y + (intShare sB d n cB (sel t)).Y } := by
      intro t ht
      have h1 := hc t ht
      rw [hpair t ht] at h1
      exact (Except.ok.inj h1).symm
    have hF0 : factorial n ≠ 0 := by
      unfold factorial
      exact_mod_cast Nat.factorial_ne_zero n
    have key := shareCombine_int_of_poly d c
      (fun k hk => by rw [hct k hk])
      (fun k hk => by rw [hct k hk])
      (factorial n)
      (by rw [hct 0 (by omega)])
      hF0
      ((Polynomial.C (sA * factorial n) + ∑ j ∈ Finset.range d,
          Polynomial.C (cA.getD j 0) * Polynomial.X ^ (j + 1)) +
       (Polynomial.C (sB * factorial n) + ∑ j ∈ Finset.range d,
          Polynomial.C (cB.getD j 0) * Polynomial.X ^ (j + 1)))
      (lt_of_le_of_lt (Polynomial.degree_add_le _ _)
        (max_lt (sharePoly_degree_lt (sA * factorial n) d cA)
          (sharePoly_degree_lt (sB * factorial n) d cB)))
      (fun a ha b hb hab => by
        rw [hct a ha, hct b hb]
        intro h
        refine hinj a ha b hb hab ?_
        have : ((sel b : Int)) = ((sel a : Int)) := by
          dsimp only at h
          omega
        exact_mod_cast this)
      (fun i hi => by
        rw [hct i hi]
        show _ = _
        rw [Polynomial.eval_add, sharePoly_eval, sharePoly_eval]
        unfold intShare
        dsimp only)
    rw [key, Polynomial.coeff_add, sharePoly_coeff_zero, sharePoly_coeff_zero]
    refine congrArg Except.ok ?_
    have heq : sA * factorial n + sB * factorial n = (sA + sB) * factorial n := by ring
    rw [heq]
    exact Int.mul_ediv_cancel _ hF0

theorem shareMulLoop_degree_factor (s0 : Share) (l : List Share) :
    ∀ (y deg : Int) (fac : Option Int) (out : Share),
    shareMulLoop s0 y deg fac l = Except.ok out →
    out.Degree = deg + (l.map Share.Degree).sum ∧
      (∀ f, fac = some f → (∀ s ∈ l, s.Factor ≠ none) →
        out.Factor = some (f * (l.map fun s => s.Factor.getD 1).prod)) := by
  induction l with
  | nil =>
    intro y deg fac out h
    cases h
    refine ⟨by simp, fun f hf _ => by simp [hf]⟩
  | cons s t ih =>
    intro y deg fac out h
    by_cases hc : opCompat s0 s = true
    · simp only [shareMulLoop, hc, if_true] at h
      cases hFS : s0.FieldSize with
      | some p =>
        rw [hFS] at h
        dsimp only at h
        by_cases hp : p = 0
        · rw [if_pos hp] at h
          cases h
        · rw [if_neg hp] at h
          cases hfac : fac with
          | none =>
            rw [hfac] at h
            dsimp only at h
            obtain ⟨hdeg, -⟩ := ih _ _ _ _ h
            refine ⟨by rw [hdeg]; simp; ring, fun f hf _ => by cases hf⟩
          | some f =>
            rw [hfac] at h
            dsimp only at h
            cases hsf : s.Factor with
            | none =>
              rw [hsf] at h
              cases h
            | some g =>
              rw [hsf] at h
              dsimp only at h
              obtain ⟨hdeg, hfacs⟩ := ih _ _ _ _ h
              constructor
              · rw [hdeg]
                simp
                ring
              · intro f' hf' hall
                have hf'' : f' = f := (Option.some.inj hf').symm
                subst hf''
                have := hfacs (f' * g) rfl
                  (fun x hx => hall x (List.mem_cons_of_mem _ hx))
                rw [this]
                simp [hsf]
                ring
      | none =>
        rw [hFS] at h
        dsimp only at h
        cases hfac : fac with
        | none =>
          rw [hfac] at h
          dsimp only at h
          obtain ⟨hdeg, -⟩ := ih _ _ _ _ h
          refine ⟨by rw [hdeg]; simp; ring, fun f hf _ => by cases hf⟩
        | some f =>
          rw [hfac] at h
          dsimp only at h
          cases hsf : s.Factor with
          | none =>
            rw [hsf] at h
            cases h
          | some g =>
            rw [hsf] at h
            dsimp only at h
            obtain ⟨hdeg, hfacs⟩ := ih _ _ _ _ h
            constructor
            · rw [hdeg]
              simp
              ring
            · intro f' hf' hall
              have hf'' : f' = f := (Option.some.inj hf').symm
              subst hf''
              have := hfacs (f' * g) rfl
                (fun x hx => hall x (List.mem_cons_of_mem _ hx))
              rw [this]
              simp [hsf]
              ring
    · simp only [shareMulLoop, hc, if_false] at h
      cases h

/-- C5, amended: for two secrets shared over the same finite field with the
same degree `d` and `n ≥ 2d+1` shares, pointwise `ShareMul` succeeds, and
`ShareCombine` on any `(2d+1)`-subset of the products yields
`sA · sB mod p` — provided the chosen evaluation points are pairwise
distinct modulo `p` (automatic for `p > n`; without it the counterexample at
`p = 3` applies).  Moreover every successful `ShareMul` output has degree
equal to the sum of the input shares' degrees, and when the first input
carries a scale factor and no input's factor is `nil` the output factor is
the product of the input factors. -/
theorem shareMul_homomorphism :
    (∀ (sA sB p : Int), Prime p → 0 < p → ∀ (d n : Nat), 2 * d < n →
      ∀ (cA cB : List Int), cA.length = d → cB.length = d →
      ∀ (sel : Nat → Nat), (∀ t < 2 * d + 1, sel t < n) →
      (∀ a < 2 * d + 1, ∀ b < 2 * d + 1, a ≠ b →
        ¬ (p ∣ ((sel b : Int) - (sel a : Int)))) →
      (∀ t < 2 * d + 1, ∃ ct, ShareMul
        [(ShareFiniteField sA p d n cA).getD (sel t) default,
         (ShareFiniteField sB p d n cB).getD (sel t) default] = Except.ok ct) ∧
      (∀ c : Nat → Share, (∀ t < 2 * d + 1, ShareMul
        [(ShareFiniteField sA p d n cA).getD (sel t) default,
         (ShareFiniteField sB p d n cB).getD (sel t) default] = Except.ok (c t)) →
        ShareCombine ((List.range (2 * d + 1)).map c) = Except.ok ((sA * sB) % p))) ∧
    (∀ (s0 : Share) (rest : List Share) (out : Share),
      ShareMul (s0 :: rest) = Except.ok out →
      out.Degree = s0.Degree + (rest.map Share.Degree).sum ∧
        (∀ f0, s0.Factor = some f0 → (∀ s ∈ rest, s.Factor ≠ none) →
          out.Factor = some (f0 * (rest.map fun s => s.Factor.getD 1).prod))) := by
  constructor
  · intro sA sB p hp hppos d n hn cA cB hlA hlB sel hseln hdist
    have hp0 : p ≠ 0 := by
      intro h
      rw [h] at hppos
      exact lt_irrefl 0 hppos
    have hshA : ∀ t < 2 * d + 1,
        (ShareFiniteField sA p d n cA).getD (sel t) default
          = ffShare sA p d cA (sel t) := fun t ht =>
      shareFiniteField_getD sA p d n cA (sel t) (hseln t ht)
    have hshB : ∀ t < 2 * d + 1,
        (ShareFiniteField sB p d n cB).getD (sel t) default
          = ffShare sB p d cB (sel t) := fun t ht =>
      shareFiniteField_getD sB p d n cB (sel t) (hseln t ht)
    have hpair : ∀ t < 2 * d + 1, ShareMul
        [(ShareFiniteField sA p d n cA).getD (sel t) default,
         (ShareFiniteField sB p d n cB).getD (sel t) default] = Except.ok
        { FieldSize := some p, Factor := none, Degree := (d : Int) + (d : Int),
          X := (sel t : Int) + 1,
          Y := (ffShare sA p d cA (sel t)).Y * (ffShare sB p d cB (sel t)).Y % p } := by
      intro t ht
      rw [hshA t ht, hshB t ht]
      exact shareMul_pair_ff_nofac _ _ p rfl hp0 rfl
        ((opCompat_eq_true_iff _ _).mpr ⟨rfl, rfl, rfl⟩)
    refine ⟨fun t ht => ⟨_, hpair t ht⟩, ?_⟩
    intro c hc
    have hct : ∀ t < 2 * d + 1, c t =
        { FieldSize := some p, Factor := none, Degree := (d : Int) + (d : Int),
          X := (sel t : Int) + 1,
          Y := (ffShare sA p d cA (sel t)).Y * (ffShare sB p d cB (sel t)).Y % p } := by
      intro t ht
      have h1 := hc t ht
      rw [hpair t ht] at h1
      exact (Except.ok.inj h1).symm
    have key := shareCombine_ff_of_poly p hp hppos (2 * d) c
      (fun k hk => by rw [hct k hk])
      (fun k hk => by rw [hct k hk]; push_cast; ring)
      ((Polynomial.C sA + ∑ j ∈ Finset.range d,
          Polynomial.C (cA.getD j 0) * Polynomial.X ^ (j + 1)) *
       (Polynomial.C sB + ∑ j ∈ Finset.range d,
          Polynomial.C (cB.getD j 0) * Polynomial.X ^ (j + 1)))
      (by
        refine lt_of_le_of_lt (Polynomial.degree_mul_le _ _) ?_
        refine lt_of_le_of_lt (add_le_add (sharePoly_degree_le sA d cA)
          (sharePoly_degree_le sB d cB)) ?_
        have : ((d : Nat) : WithBot Nat) + ((d : Nat) : WithBot Nat)
            = ((d + d : Nat) : WithBot Nat) := by
          push_cast
          ring
        rw [this]
        exact_mod_cast WithBot.coe_lt_coe.mpr (by omega))
      (fun a ha b hb hab => by
        rw [hct a ha, hct b hb]
        intro hdvd
        refine hdist a ha b hb hab ?_
        have heq : ((sel b : Int) + 1) - ((sel a : Int) + 1)
            = (sel b : Int) - (sel a : Int) := by ring
        rw [← heq]
        exact hdvd)
      (fun i hi => by
        rw [hct i hi]
        show p ∣ _ - _
        rw [Polynomial.eval_mul, sharePoly_eval, sharePoly_eval]
        dsimp only
        have h1 : Int.ModEq p ((ffShare sA p d cA (sel i)).Y)
            (sA + ∑ j ∈ Finset.range d, cA.getD j 0 * ((sel i : Int) + 1) ^ (j + 1)) := by
          unfold ffShare
          exact Int.emod_emod_of_dvd _ dvd_rfl
        have h2 : Int.ModEq p ((ffShare sB p d cB (sel i)).Y)
            (sB + ∑ j ∈ Finset.range d, cB.getD j 0 * ((sel i : Int) + 1) ^ (j + 1)) := by
          unfold ffShare
          exact Int.emod_emod_of_dvd _ dvd_rfl
        have h3 : Int.ModEq p
            ((ffShare sA p d cA (sel i)).Y * (ffShare sB p d cB (sel i)).Y % p)
            ((ffShare sA p d cA (sel i)).Y * (ffShare sB p d cB (sel i)).Y) :=
          Int.emod_emod_of_dvd _ dvd_rfl
        have h4 := h3.trans (h1.mul h2)
        exact (h4.symm).dvd)
    rw [key, Polynomial.mul_coeff_zero, sharePoly_coeff_zero, sharePoly_coeff_zero]
  · intro s0 rest out h
    unfold ShareMul at h
    exact shareMulLoop_degree_factor s0 rest s0.Y s0.Degree s0.Factor out h

/-! ## Concrete witnesses for the quantified theorems -/

section ConcreteWitness

attribute [local semireducible] Rat.mul Rat.inv Rat.add Rat.sub Rat.ofScientific

/-- C1, witness: secret `3`, prime `5`, degree `1`, `n = 2`, coefficient `2`,
identity selection. -/
theorem shareFiniteField_roundtrip_witness :
    ShareCombine ((List.range (1 + 1)).map
      fun t => (ShareFiniteField 3 5 1 2 [2]).getD ((fun t => t) t) default)
      = Except.ok (3 % 5) :=
  shareFiniteField_roundtrip 3 5 (by norm_num) (by norm_num) 1 2 (by omega)
    [2] rfl (by intro c hc; simp at hc; omega)
    (fun t => t) (fun t ht => ht)
    (by intro a ha b hb hab; dsimp only; omega)

/-- C2, witness: secret `1`, bound `1`, security parameter `1`, degree `0`,
one share. -/
theorem shareIntegers_roundtrip_witness :
    ShareCombine ((List.range (0 + 1)).map
      fun t => (ShareIntegers 1 1 1 0 1 []).getD ((fun t => t) t) default)
      = Except.ok 1 :=
  shareIntegers_roundtrip 1 1 1 0 1 (by omega) (by norm_num) [] rfl
    (by intro c hc; cases hc)
    (fun t => t) (fun t ht => ht)
    (by intro a ha b hb hab; dsimp only; omega)

/-- C4, witness: secrets `3` and `2` shared over `p = 5` with degree `1`,
`n = 2`; the pointwise sums combine to `(3 + 2) mod 5`. -/
theorem shareAdd_homomorphism_witness :
    ShareCombine ((List.range (1 + 1)).map
      fun t => [Share.mk (some 5) none 1 1 3, Share.mk (some 5) none 1 2 1].getD t default)
      = Except.ok ((3 + 2) % 5) :=
  (shareAdd_homomorphism.1 3 2 5 (by norm_num) (by norm_num) 1 2 (by omega)
    [1] [2] rfl rfl (fun t => t) (fun t ht => ht)
    (by intro a ha b hb hab; dsimp only; omega)).2
    (fun t => [Share.mk (some 5) none 1 1 3, Share.mk (some 5) none 1 2 1].getD t default)
    (by decide)

/-- C5, witness: secrets `2` and `3` shared over `p = 5` with degree `0`,
one share; the pointwise product combines to `(2 * 3) mod 5`. -/
theorem shareMul_homomorphism_witness :
    ShareCombine ((List.range (2 * 0 + 1)).map
      fun t => [Share.mk (some 5) none 0 1 1].getD t default)
      = Except.ok ((2 * 3) % 5) :=
  (shareMul_homomorphism.1 2 3 5 (by norm_num) (by norm_num) 0 1 (by omega)
    [] [] rfl rfl (fun t => t) (fun t ht => ht)
    (by intro a ha b hb hab; dsimp only; omega)).2
    (fun t => [Share.mk (some 5) none 0 1 1].getD t default)
    (by decide)

/-- C7, witness: a degree-0 two-share list; the result on the full list
equals the result on the first share alone. -/
theorem shareCombine_uses_prefix_witness :
    ShareCombine ((Share.mk (some 5) none 0 1 2
      :: [Share.mk (some 5) none 0 2 4]).take ((Share.mk (some 5) none 0 1 2).Degree + 1).toNat)
      = Except.ok 2 :=
  shareCombine_uses_prefix (Share.mk (some 5) none 0 1 2)
    [Share.mk (some 5) none 0 2 4] 2 (by decide) (by rfl)

end ConcreteWitness
